import Mathlib

set_option maxHeartbeats 1000000

/-!
# Velum core: formal model and verification

A shallow embedding of the Velum editor core.  The repository sources provide
`api.rs` (the FFI surface over a process-wide document) and the OOXML parser
(`ooxml/document.rs`); the Text Store (`piece_tree.rs`) and History Manager
(`undo_redo.rs`) are declared in `lib.rs` and called from `api.rs` but their
sources are not available, so those two components are modelled from the
specification (each such definition carries a `Modelled from the spec:`
doc comment).  Rust `String`s are modelled as lists of characters.
-/

namespace Velum

/-- Characters of the document; a Rust `String` is modelled as a `List Char`. -/
abbrev Str := List Char

/-- Modelled from the spec: the error kinds of §7 (`piece_tree.rs` and
`undo_redo.rs` are missing from the sources, so the error enum is taken from
the specification's error-handling design). -/
inductive VelumError where
  | OutOfRange
  | EmptyHistory
  | ApplyFailed
  deriving DecidableEq, Repr

/-- Modelled from the spec: identifier of a backing buffer (§3): the immutable
*original* buffer and the append-only *added* buffer. -/
inductive BufferId where
  | original
  | added
  deriving DecidableEq, Repr

/-- Modelled from the spec: optional per-piece formatting attributes (§3):
bold/italic/underline/font family/size/color, uniform across a piece. -/
structure TextAttributes where
  bold : Bool
  italic : Bool
  underline : Bool
  fontFamily : Str
  fontSize : Nat
  color : Str
  deriving DecidableEq, Repr

/-- Modelled from the spec: a Piece descriptor (§3)
`{buffer_id, start, length, line_starts, attributes}` referencing the span
`[start, start+length)` of one backing buffer; `line_starts` is the ordered
list of offsets (relative to `start`) of line terminators inside the span. -/
structure Piece where
  buffer_id : BufferId
  start : Nat
  length : Nat
  line_starts : List Nat
  attributes : Option TextAttributes
  deriving DecidableEq, Repr

/-- Modelled from the spec: the Text Store (§3): two backing buffers and the
ordered piece sequence whose concatenated spans equal the document text. -/
structure PieceTree where
  original : Str
  added : Str
  pieces : List Piece
  deriving DecidableEq, Repr

/-- Offsets of line terminators (newline characters) in a text, in order. -/
def computeLineStarts : Str → List Nat
  | [] => []
  | c :: rest =>
      let tail := (computeLineStarts rest).map (· + 1)
      if c = '\n' then 0 :: tail else tail

/-- The backing buffer named by a `BufferId`. -/
def PieceTree.buffer (pt : PieceTree) : BufferId → Str
  | .original => pt.original
  | .added => pt.added

/-- The text referenced by one piece: the span `[start, start+length)` of its
backing buffer. -/
def PieceTree.pieceText (pt : PieceTree) (p : Piece) : Str :=
  ((pt.buffer p.buffer_id).drop p.start).take p.length

/-- Modelled from the spec: `get_text()` — concatenation of every piece's
referenced span, in order (§4.1). -/
def PieceTree.getText (pt : PieceTree) : Str :=
  (pt.pieces.map pt.pieceText).flatten

/-- The document length: the sum of the piece lengths (§3 invariant:
this sum equals the document length). -/
def PieceTree.docLength (pt : PieceTree) : Nat :=
  (pt.pieces.map Piece.length).sum

/-- Build a piece over the span `[start, start+len)` of buffer `b`, with its
`line_starts` computed from the referenced text (the spec's cached prefix
structure, recomputed at construction). -/
def PieceTree.mkPiece (pt : PieceTree) (b : BufferId) (start len : Nat)
    (attrs : Option TextAttributes) : Piece :=
  { buffer_id := b, start := start, length := len,
    line_starts := computeLineStarts (((pt.buffer b).drop start).take len),
    attributes := attrs }

/-- Modelled from the spec: the piece-sequence part of `insert` (§4.1): walk
the sequence to the insertion offset; at a piece boundary the new piece is
inserted between pieces, strictly inside a piece the piece is split into a
left and a right remainder (same buffer, shrunk spans, recomputed
`line_starts`) with the new piece between them. -/
def PieceTree.insertIntoPieces (pt : PieceTree) (np : Piece) :
    List Piece → Nat → List Piece
  | [], _ => [np]
  | p :: ps, offset =>
      if offset = 0 then np :: p :: ps
      else if offset < p.length then
        pt.mkPiece p.buffer_id p.start offset p.attributes
          :: np
          :: pt.mkPiece p.buffer_id (p.start + offset) (p.length - offset) p.attributes
          :: ps
      else p :: pt.insertIntoPieces np ps (offset - p.length)

/-- Modelled from the spec: the piece-sequence part of `delete` (§4.1): walk
the sequence removing or trimming every piece overlapping the deleted range;
pieces fully inside the range are removed, partially covered pieces are
shrunk, and a deletion strictly inside one piece splits it into a left and a
right remainder.  Zero-length remainders are dropped (§3: no piece has zero
length). -/
def PieceTree.deleteFromPieces (pt : PieceTree) :
    List Piece → Nat → Nat → List Piece
  | [], _, _ => []
  | p :: ps, offset, len =>
      if len = 0 then p :: ps
      else if p.length ≤ offset then
        p :: pt.deleteFromPieces ps (offset - p.length) len
      else
        let delHere := min len (p.length - offset)
        let left :=
          if offset = 0 then []
          else [pt.mkPiece p.buffer_id p.start offset p.attributes]
        let rightLen := p.length - (offset + delHere)
        let right :=
          if rightLen = 0 then []
          else [pt.mkPiece p.buffer_id (p.start + offset + delHere) rightLen p.attributes]
        left ++ right ++ pt.deleteFromPieces ps 0 (len - delHere)

/-- Modelled from the spec: the read-path range walk used by
`get_text_range` (§4.1): walk the piece sequence accumulating lengths,
skipping pieces entirely before the offset, slicing partial pieces at the
boundaries, stopping once the requested number of characters is collected. -/
def PieceTree.rangeWalk (pt : PieceTree) : List Piece → Nat → Nat → Str
  | [], _, _ => []
  | p :: ps, offset, len =>
      if len = 0 then []
      else if p.length ≤ offset then pt.rangeWalk ps (offset - p.length) len
      else
        ((pt.pieceText p).drop offset).take len
          ++ pt.rangeWalk ps 0 (len - min len (p.length - offset))

/-- Modelled from the spec: `insert(offset, text)` (§4.1): fails with
`OutOfRange` if `offset > document length`; otherwise appends `text` to the
added buffer, creates one new piece over the appended span with newly
computed `line_starts`, and inserts it into the piece sequence (splitting a
piece when the offset falls strictly inside it).  Inserting empty text
appends nothing and creates no piece (§3: no piece has zero length). -/
def PieceTree.insert (pt : PieceTree) (offset : Nat) (text : Str) :
    Except VelumError PieceTree :=
  if offset > pt.docLength then .error .OutOfRange
  else if text.isEmpty then .ok pt
  else
    let pt' : PieceTree := { pt with added := pt.added ++ text }
    let np := pt'.mkPiece .added pt.added.length text.length none
    .ok { pt' with pieces := pt'.insertIntoPieces np pt.pieces offset }

/-- Modelled from the spec: `delete(offset, length)` (§4.1): fails with
`OutOfRange` if `offset + length > document length`; otherwise removes or
trims every piece overlapping the range and returns the removed concatenated
text (collected by the same walk as `get_text_range`) so callers can build
an invertible Delete command. -/
def PieceTree.delete (pt : PieceTree) (offset length : Nat) :
    Except VelumError (PieceTree × Str) :=
  if offset + length > pt.docLength then .error .OutOfRange
  else
    .ok ({ pt with pieces := pt.deleteFromPieces pt.pieces offset length },
         pt.rangeWalk pt.pieces offset length)

/-- Modelled from the spec: `get_text_range(offset, length)` (§4.1): clamps
the requested range to `[0, document length]` rather than erroring, then
walks the piece sequence collecting the clamped range. -/
def PieceTree.get_text_range (pt : PieceTree) (offset length : Nat) : Str :=
  let n := pt.docLength
  let s := min offset n
  let e := min (offset + length) n
  pt.rangeWalk pt.pieces s (e - s)

/-- Modelled from the spec: `get_line_count()` (§4.1): the number of line
terminators across all pieces (read from the cached `line_starts`), plus
one; an empty document has line count 0 by convention (§8 open question,
fixed to 0 here as the spec's stated convention). -/
def PieceTree.get_line_count (pt : PieceTree) : Nat :=
  if pt.pieces.isEmpty then 0
  else (pt.pieces.map (fun p => p.line_starts.length)).sum + 1

/-- Document-global offsets of all line terminators, computed by walking the
pieces and shifting each piece's cached `line_starts` by the cumulative
length of the pieces before it. -/
def piecesTerminators : List Piece → List Nat
  | [] => []
  | p :: ps => p.line_starts ++ (piecesTerminators ps).map (· + p.length)

/-- Modelled from the spec: `get_line(line_number)` (§4.1): returns `none`
if `line_number >= get_line_count()`; otherwise locates the start and end
offsets of the requested line from the pieces' cached terminator positions
and delegates to `get_text_range` (line content excludes the terminator). -/
def PieceTree.get_line (pt : PieceTree) (line_number : Nat) : Option Str :=
  if line_number ≥ pt.get_line_count then none
  else
    let terms := piecesTerminators pt.pieces
    let lineStart := if line_number = 0 then 0 else terms.getD (line_number - 1) 0 + 1
    let lineEnd := terms.getD line_number pt.docLength
    some (pt.get_text_range lineStart (lineEnd - lineStart))

/-- Modelled from the spec: a Text Store pre-seeded with one piece spanning
the original buffer (§3 lifecycle); an empty initial text yields an empty
piece sequence (§3: no piece has zero length). -/
def PieceTree.new (s : Str) : PieceTree :=
  { original := s, added := [],
    pieces :=
      if s.isEmpty then []
      else [{ buffer_id := .original, start := 0, length := s.length,
              line_starts := computeLineStarts s, attributes := none }] }

/-- Modelled from the spec: `PieceTree::empty()` — an empty Text Store. -/
def PieceTree.emptyDoc : PieceTree := PieceTree.new []

/-! ## Well-formedness of a Text Store

The spec's §3 invariants: every piece references a span inside its backing
buffer, no piece has zero length, and each piece's cached `line_starts` are
exactly the terminator offsets of the referenced text. -/

/-- Well-formedness of one piece relative to the tree's buffers. -/
def PieceTree.pieceWF (pt : PieceTree) (p : Piece) : Prop :=
  p.start + p.length ≤ (pt.buffer p.buffer_id).length ∧
  p.length ≠ 0 ∧
  p.line_starts = computeLineStarts (pt.pieceText p)

instance (pt : PieceTree) (p : Piece) : Decidable (pt.pieceWF p) := by
  unfold PieceTree.pieceWF; infer_instance

/-- Well-formedness of a Text Store: every piece is well formed. -/
def PieceTree.WF (pt : PieceTree) : Prop :=
  ∀ p ∈ pt.pieces, pt.pieceWF p

instance (pt : PieceTree) : Decidable pt.WF := by
  unfold PieceTree.WF; infer_instance

/-! ## Plain-string reference model -/

/-- The reference model's insert: splice `t` into `s` at `o`. -/
def refInsert (s : Str) (o : Nat) (t : Str) : Str :=
  s.take o ++ t ++ s.drop o

/-- The reference model's delete: remove `[o, o+l)` from `s`. -/
def refDelete (s : Str) (o l : Nat) : Str :=
  s.take o ++ s.drop (o + l)

/-- One edit operation issued by a caller. -/
inductive EditOp where
  | insert (offset : Nat) (text : Str)
  | delete (offset length : Nat)
  deriving DecidableEq, Repr

/-- Apply one operation to the Text Store (discarding delete's removed
text). -/
def PieceTree.applyOp (pt : PieceTree) : EditOp → Except VelumError PieceTree
  | .insert o t => pt.insert o t
  | .delete o l => (pt.delete o l).map Prod.fst

/-- Apply a sequence of operations to the Text Store, stopping at the first
error. -/
def PieceTree.applyOps (pt : PieceTree) : List EditOp → Except VelumError PieceTree
  | [] => .ok pt
  | op :: rest => pt.applyOp op >>= fun pt' => pt'.applyOps rest

/-- Apply one operation in the plain-string reference model, with the write
path's bounds checks. -/
def refApplyOp (s : Str) : EditOp → Except VelumError Str
  | .insert o t => if o > s.length then .error .OutOfRange else .ok (refInsert s o t)
  | .delete o l => if o + l > s.length then .error .OutOfRange else .ok (refDelete s o l)

/-- Apply a sequence of operations in the reference model. -/
def refApplyOps (s : Str) : List EditOp → Except VelumError Str
  | [] => .ok s
  | op :: rest => refApplyOp s op >>= fun s' => refApplyOps s' rest

/-! ## History Manager

Modelled from the spec (§3, §4.2): `undo_redo.rs` is missing from the
sources, so commands, records, the bounded stacks, merge eligibility and the
execute/undo/redo state machine are taken from the specification text. -/

/-- Modelled from the spec: the closed tag set for `operation_type`. -/
inductive OperationType where
  | insert
  | delete
  deriving DecidableEq, Repr

/-- Modelled from the spec: an immutable, invertible description of one
logical edit (§3): `Insert(offset, text)` or
`Delete(offset, length, removed_text)`, the removed text captured at apply
time so Delete is self-invertible. -/
inductive Command where
  | insertCmd (offset : Nat) (text : Str)
  | deleteCmd (offset length : Nat) (removed_text : Str)
  deriving DecidableEq, Repr

/-- The operation type of a command. -/
def Command.opType : Command → OperationType
  | .insertCmd .. => .insert
  | .deleteCmd .. => .delete

/-- Modelled from the spec: `CommandMetadata {timestamp, operation_type}`
(§3); timestamps in milliseconds. -/
structure CommandMetadata where
  timestamp : Nat
  operation_type : OperationType
  deriving DecidableEq, Repr

/-- Modelled from the spec: a Command plus its metadata, the unit stored in
history (§3). -/
structure CommandRecord where
  command : Command
  metadata : CommandMetadata
  deriving DecidableEq, Repr

/-- Modelled from the spec: the History Manager state (§4.2): two bounded
stacks of records (oldest at index 0, most recent at the end), the history
bound and the merge window. -/
structure UndoRedoManager where
  undo_stack : List CommandRecord
  redo_stack : List CommandRecord
  max_history_size : Nat
  merge_window_ms : Nat
  deriving DecidableEq, Repr

/-- Modelled from the spec: contiguity for merging (§4.2(c)) — for Insert,
the new insertion offset equals the end offset of the previous insertion;
for Delete, the new deletion's end offset equals the previous deletion's
start offset (backspacing) or the new deletion's start equals the previous
deletion's start (forward-delete). -/
def contiguous : Command → Command → Bool
  | .insertCmd o t, .insertCmd o' _ => o' = o + t.length
  | .deleteCmd o _ _, .deleteCmd o' l' _ => o' + l' = o || o' = o
  | _, _ => false

/-- Modelled from the spec: merge eligibility (§4.2): same
`operation_type`, `new.timestamp - top.timestamp <= merge_window_ms`, and
contiguity. -/
def mergeEligible (merge_window_ms : Nat) (top : CommandRecord)
    (nc : Command) (ts : Nat) : Bool :=
  decide (nc.opType = top.metadata.operation_type) &&
  decide (ts - top.metadata.timestamp ≤ merge_window_ms) &&
  contiguous top.command nc

/-- Modelled from the spec: extend the top record's command in place on a
merge (§4.2): text concatenated/prepended, or `removed_text` extended; the
backspacing direction is checked first, mirroring the spec's order. -/
def mergeCommand : Command → Command → Command
  | .insertCmd o t, .insertCmd _ t' => .insertCmd o (t ++ t')
  | .deleteCmd o l r, .deleteCmd o' l' r' =>
      if o' + l' = o then .deleteCmd o' (l + l') (r' ++ r)
      else .deleteCmd o (l + l') (r ++ r')
  | top, _ => top

/-- Modelled from the spec: record one successfully applied command (§4.2):
merge into the top undo record when eligible (updating its timestamp), else
push a new record; clear the redo stack unconditionally; evict the oldest
record from the front if the undo stack now exceeds `max_history_size`. -/
def UndoRedoManager.record (h : UndoRedoManager) (nc : Command) (ts : Nat) :
    UndoRedoManager :=
  let undo₁ :=
    match h.undo_stack.getLast? with
    | some top =>
        if mergeEligible h.merge_window_ms top nc ts then
          h.undo_stack.dropLast ++
            [⟨mergeCommand top.command nc, ⟨ts, top.metadata.operation_type⟩⟩]
        else h.undo_stack ++ [⟨nc, ⟨ts, nc.opType⟩⟩]
    | none => h.undo_stack ++ [⟨nc, ⟨ts, nc.opType⟩⟩]
  let undo₂ := if undo₁.length > h.max_history_size then undo₁.drop 1 else undo₁
  { h with undo_stack := undo₂, redo_stack := [] }

/-- Modelled from the spec: the session object owning a Text Store and its
History Manager (§5, §6: create session yields an empty Text Store and
empty history). -/
structure Session where
  store : PieceTree
  history : UndoRedoManager
  deriving DecidableEq, Repr

/-- A fresh session: empty Text Store, empty history, with the given bound
and merge window. -/
def Session.create (maxHistory mergeWindow : Nat) : Session :=
  { store := PieceTree.emptyDoc,
    history := { undo_stack := [], redo_stack := [],
                 max_history_size := maxHistory, merge_window_ms := mergeWindow } }

/-- The record execute would construct for an operation against the current
store (delete captures the removed text the store's walk collects). -/
def Session.newRecord (s : Session) (op : EditOp) (ts : Nat) : CommandRecord :=
  match op with
  | .insert o t => ⟨.insertCmd o t, ⟨ts, .insert⟩⟩
  | .delete o l => ⟨.deleteCmd o l (s.store.rangeWalk s.store.pieces o l), ⟨ts, .delete⟩⟩

/-- Modelled from the spec: `execute(command)` (§4.2): apply the command to
the Text Store (failing with `ApplyFailed` if the store rejects it, leaving
both the store and both stacks unchanged); on success record it (merging
when eligible, clearing redo, evicting on overflow). -/
def Session.execute (s : Session) (op : EditOp) (ts : Nat) :
    Except VelumError Session :=
  match op with
  | .insert o t =>
      match s.store.insert o t with
      | .error _ => .error .ApplyFailed
      | .ok store' =>
          .ok { store := store', history := s.history.record (.insertCmd o t) ts }
  | .delete o l =>
      match s.store.delete o l with
      | .error _ => .error .ApplyFailed
      | .ok (store', removed) =>
          .ok { store := store',
                history := s.history.record (.deleteCmd o l removed) ts }

/-- Apply a command forward to a store (as redo does). -/
def applyCommand (store : PieceTree) : Command → Except VelumError PieceTree
  | .insertCmd o t => store.insert o t
  | .deleteCmd o l _ => (store.delete o l).map Prod.fst

/-- Apply the inverse of a command to a store (§4.2: Insert's inverse is a
Delete of the same span; Delete's inverse is an Insert of its captured
`removed_text` at its original offset). -/
def applyInverse (store : PieceTree) : Command → Except VelumError PieceTree
  | .insertCmd o t => (store.delete o t.length).map Prod.fst
  | .deleteCmd o _ r => store.insert o r

/-- Modelled from the spec: `undo()` (§4.2): fails with `EmptyHistory` if
the undo stack is empty; otherwise pops the top record, applies its inverse
to the Text Store (failing atomically with `ApplyFailed` if the store
rejects it), and pushes the record onto the redo stack. -/
def Session.undo (s : Session) : Except VelumError Session :=
  match s.history.undo_stack.getLast? with
  | none => .error .EmptyHistory
  | some r =>
      match applyInverse s.store r.command with
      | .error _ => .error .ApplyFailed
      | .ok store' =>
          .ok { store := store',
                history := { s.history with
                  undo_stack := s.history.undo_stack.dropLast,
                  redo_stack := s.history.redo_stack ++ [r] } }

/-- Modelled from the spec: `redo()` (§4.2): fails with `EmptyHistory` if
the redo stack is empty; otherwise pops the top redo record, re-applies its
original forward command to the Text Store, and pushes it back onto the
undo stack. -/
def Session.redo (s : Session) : Except VelumError Session :=
  match s.history.redo_stack.getLast? with
  | none => .error .EmptyHistory
  | some r =>
      match applyCommand s.store r.command with
      | .error _ => .error .ApplyFailed
      | .ok store' =>
          .ok { store := store',
                history := { s.history with
                  redo_stack := s.history.redo_stack.dropLast,
                  undo_stack := s.history.undo_stack ++ [r] } }

/-- Execute a timestamped sequence of operations, stopping at the first
error. -/
def Session.executeAll (s : Session) : List (EditOp × Nat) → Except VelumError Session
  | [] => .ok s
  | (op, ts) :: rest => s.execute op ts >>= fun s' => s'.executeAll rest

/-- The records a sequence of successful executes constructs, in execution
order (empty past the first failure). -/
def Session.traceRecords (s : Session) : List (EditOp × Nat) → List CommandRecord
  | [] => []
  | (op, ts) :: rest =>
      match s.execute op ts with
      | .ok s' => s.newRecord op ts :: s'.traceRecords rest
      | .error _ => []

/-- A trace in which every execute succeeds and no step merges into the top
undo record. -/
def Session.NoMergeTrace (s : Session) : List (EditOp × Nat) → Prop
  | [] => True
  | (op, ts) :: rest =>
      (∀ top ∈ s.history.undo_stack.getLast?,
        mergeEligible s.history.merge_window_ms top (s.newRecord op ts).command ts = false) ∧
      ∃ s', s.execute op ts = .ok s' ∧ s'.NoMergeTrace rest

/-- A record matches a document text when undoing and redoing it there is
meaningful: an Insert record's text is actually present at its span, and a
Delete record's captured text has the recorded length. -/
def recordMatches (d : Str) (r : CommandRecord) : Prop :=
  match r.command with
  | .insertCmd o t => (d.drop o).take t.length = t
  | .deleteCmd _ l rt => rt.length = l

instance (d : Str) (r : CommandRecord) : Decidable (recordMatches d r) := by
  unfold recordMatches; exact match r.command with
  | .insertCmd .. => inferInstance
  | .deleteCmd .. => inferInstance

/-- The top of the undo stack (the only merge target) matches the current
document. -/
def Session.TopOk (s : Session) : Prop :=
  ∀ r ∈ s.history.undo_stack.getLast?, recordMatches s.store.getText r

instance (s : Session) : Decidable s.TopOk := by
  unfold Session.TopOk; infer_instance

/-- A command fits a document text when its inverse and forward applications
both stay in bounds there: an Insert record's text is present at its span,
and a Delete record's captured text has the recorded length and its offset
is in bounds. -/
def commandFits (d : Str) : Command → Prop
  | .insertCmd o t => (d.drop o).take t.length = t ∧ o + t.length ≤ d.length
  | .deleteCmd o l rt => rt.length = l ∧ o ≤ d.length

/-! ## The api layer (`api.rs`)

`api.rs` holds `static DOCUMENT: Lazy<RwLock<PieceTree>>` — a single
process-wide document — and every exported function reads or writes that one
value; no function takes or returns a session handle.  The api is embedded
as state-passing functions over the global state.  `pt.undo()`/`pt.redo()`
of `api.rs` act on the same single global; they are not needed below, so the
global is modelled at the Text Store level.  A mutation whose store apply
fails leaves the store unchanged (the result value is dropped in `api.rs`,
which returns `pt.get_text()` regardless). -/

namespace Api

/-- The type of the process-wide `static DOCUMENT` of `api.rs`. -/
abbrev ApiState := PieceTree

/-- From `api.rs`: `create_empty_document()` resets the global document to
`PieceTree::empty()` and returns its text. -/
def create_empty_document (_g : ApiState) : Str × ApiState :=
  let pt := PieceTree.emptyDoc
  (pt.getText, pt)

/-- From `api.rs`: `insert_text(offset, new_text)` mutates the global document and returns
its full text. -/
def insert_text (offset : Nat) (new_text : Str) (g : ApiState) : Str × ApiState :=
  match g.insert offset new_text with
  | .ok g' => (g'.getText, g')
  | .error _ => (g.getText, g)

/-- From `api.rs`: `delete_text(offset, length)` mutates the global document and returns
its full text. -/
def delete_text (offset length : Nat) (g : ApiState) : Str × ApiState :=
  match g.delete offset length with
  | .ok (g', _) => (g'.getText, g')
  | .error _ => (g.getText, g)

/-- From `api.rs`: `get_full_text()` reads the global document. -/
def get_full_text (g : ApiState) : Str :=
  g.getText

/-- From `api.rs`: `get_text_range(offset, length)` reads the global document. -/
def get_text_range (offset length : Nat) (g : ApiState) : Str :=
  g.get_text_range offset length

/-- From `api.rs`: `get_line_count()` reads the global document. -/
def get_line_count (g : ApiState) : Nat :=
  g.get_line_count

/-- From `api.rs`: `get_line_content(line_number)` reads the global document. -/
def get_line_content (line_number : Nat) (g : ApiState) : Option Str :=
  g.get_line line_number

end Api

/-! ## OOXML main-document parsing (`ooxml/document.rs`)

The paragraph, run and text extraction of `WordDocument::parse_main_document`
is built on `regex::Regex::captures`, which returns an `Option` holding the
first match only; each `for … in pattern.captures(…)` loop therefore runs at
most once.  Regex matching is embedded as a first-match scanner: the match
of `<TAG[^>]*>(.*?)</TAG>` at the first occurrence of `<TAG`, with `[^>]*`
stopping at the first `>` and the lazy group stopping at the first closing
tag.  (The scanner does not retry later `<TAG` occurrences on a failed
completion the way a backtracking engine would, and `.` is modelled as any
character; the theorems below count matches and are insensitive to which
single match is chosen.) -/

namespace Ooxml

/-- Split a list at the first occurrence of `pat`, returning the part before
the match and the part after it; `none` when `pat` does not occur. -/
def breakOn (pat : Str) : Str → Option (Str × Str)
  | [] => if pat.isEmpty then some ([], []) else none
  | c :: rest =>
      if pat.isPrefixOf (c :: rest) then some ([], (c :: rest).drop pat.length)
      else match breakOn pat rest with
           | some (pre, post) => some (c :: pre, post)
           | none => none

/-- First capture of `<TAG[^>]*>(.*?)</TAG>`: the content between the first
opening `TAG` element and its first closing tag. -/
def firstTagCapture (tag : Str) (s : Str) : Option Str :=
  match breakOn ('<' :: tag) s with
  | none => none
  | some (_, afterOpen) =>
      match breakOn ['>'] afterOpen with
      | none => none
      | some (_, afterGt) =>
          match breakOn ('<' :: '/' :: tag ++ ['>']) afterGt with
          | none => none
          | some (content, _) => some content

/-- First capture of `<TAG[^>]*>([^<]*)</TAG>` (the `<w:t>` pattern): the
content may not contain `<`, so it runs to the first `<`, which must open
the closing tag. -/
def firstTextCapture (tag : Str) (s : Str) : Option Str :=
  match breakOn ('<' :: tag) s with
  | none => none
  | some (_, afterOpen) =>
      match breakOn ['>'] afterOpen with
      | none => none
      | some (_, afterGt) =>
          match breakOn ['<'] afterGt with
          | none => none
          | some (content, afterLt) =>
              if ('/' :: tag ++ ['>']).isPrefixOf afterLt then some content else none

/-- First capture of `<TAG[^>]*ATTR="([^"]*)"`: the value of `ATTR` inside
the first opening `TAG` element (the attribute must sit before the tag's
closing `>`). -/
def firstAttrCapture (tag attr : Str) (s : Str) : Option Str :=
  match breakOn ('<' :: tag) s with
  | none => none
  | some (_, afterOpen) =>
      let inTag :=
        match breakOn ['>'] afterOpen with
        | some (pre, _) => pre
        | none => afterOpen
      match breakOn (attr ++ ['=', '"']) inTag with
      | none => none
      | some (_, afterEq) =>
          match breakOn ['"'] afterEq with
          | some (v, _) => some v
          | none => none

/-- Struct `RunProperties` (from `ooxml/types.rs`). -/
structure RunProperties where
  bold : Option Bool
  italic : Option Bool
  underline : Option Str
  font_size : Option Int
  font_name : Option Str
  color : Option Str
  background_color : Option Str
  deriving DecidableEq, Repr

/-- Default `RunProperties`: all fields `None`. -/
def RunProperties.default : RunProperties :=
  { bold := none, italic := none, underline := none, font_size := none,
    font_name := none, color := none, background_color := none }

/-- Check `RunProperties::is_default` (from `ooxml/document.rs`): no formatting
set. -/
def RunProperties.is_default (p : RunProperties) : Bool :=
  p.bold.isNone && p.italic.isNone && p.underline.isNone && p.font_size.isNone
    && p.font_name.isNone && p.color.isNone && p.background_color.isNone

/-- Struct `Run` (from `ooxml/types.rs`). -/
structure Run where
  text : Str
  properties : RunProperties
  deriving DecidableEq, Repr

/-- Struct `ParagraphProperties` (from `ooxml/types.rs`). -/
structure ParagraphProperties where
  alignment : Option Str
  indent_left : Option Int
  indent_right : Option Int
  indent_first_line : Option Int
  spacing_before : Option Int
  spacing_after : Option Int
  spacing_line : Option Int
  deriving DecidableEq, Repr

/-- Default `ParagraphProperties`: all fields `None`. -/
def ParagraphProperties.default : ParagraphProperties :=
  { alignment := none, indent_left := none, indent_right := none,
    indent_first_line := none, spacing_before := none, spacing_after := none,
    spacing_line := none }

/-- Struct `Paragraph` (from `ooxml/types.rs`). -/
structure Paragraph where
  text : Str
  properties : ParagraphProperties
  runs : List Run
  deriving DecidableEq, Repr

/-- The numeric value of a digit string. -/
def natOfDigits (l : Str) : Nat :=
  l.foldl (fun acc c => acc * 10 + (c.toNat - 48)) 0

/-- Port of `WordDocument::parse_run_properties` (from `ooxml/document.rs`): each
attribute pattern `<w:X[^>]*val="([^"]*)"` is consulted once via
`Regex::captures`; font size additionally requires an all-digit value that
parses into an `i32` and is halved. -/
def parse_run_properties (xml : Str) (props : RunProperties) : RunProperties :=
  let props :=
    match firstAttrCapture (("w:b").data) (("val").data) xml with
    | some v => { props with bold := some (!(v == ("0").data)) }
    | none => props
  let props :=
    match firstAttrCapture (("w:i").data) (("val").data) xml with
    | some v => { props with italic := some (!(v == ("0").data)) }
    | none => props
  let props :=
    match firstAttrCapture (("w:u").data) (("val").data) xml with
    | some v => { props with underline := some v }
    | none => props
  let props :=
    match firstAttrCapture (("w:sz").data) (("val").data) xml with
    | some v =>
        if !v.isEmpty && v.all Char.isDigit && natOfDigits v ≤ 2147483647 then
          { props with font_size := some ((natOfDigits v : Int) / 2) }
        else props
    | none => props
  let props :=
    match firstAttrCapture (("w:color").data) (("val").data) xml with
    | some v => { props with color := some v }
    | none => props
  let props :=
    match firstAttrCapture (("w:rFonts").data) (("w:ascii").data) xml with
    | some v => { props with font_name := some v }
    | none => props
  props

/-- The text/paragraph outcome of `WordDocument::parse` (from
`ooxml/document.rs`); the styles, theme and core-properties fields do not
interact with `text`/`paragraphs` and are omitted. -/
structure WordDocument where
  text : Str
  paragraphs : List Paragraph
  deriving DecidableEq, Repr

/-- Port of `WordDocument::parse_main_document` (from `ooxml/document.rs`), given
the content of `word/document.xml`: the paragraph loop iterates the
`Option` returned by `captures` for `<w:p[^>]*>(.*?)</w:p>`, the run loop
the one for `<w:r[^>]*>(.*?)</w:r>`, and the text loop the one for
`<w:t[^>]*>([^<]*)</w:t>` (with an immediate `break`); a run is kept when
its text is non-empty or its properties are not default, a paragraph when
it has runs, the paragraph text is the concatenation of its run texts, and
the document text joins the paragraph texts with a newline. -/
def parse_main_document (xml : Str) : WordDocument :=
  let paragraphs :=
    match firstTagCapture (("w:p").data) xml with
    | none => []
    | some para_xml =>
        let runs :=
          match firstTagCapture (("w:r").data) para_xml with
          | none => []
          | some run_xml =>
              let text :=
                match firstTextCapture (("w:t").data) run_xml with
                | some t => t
                | none => []
              let props :=
                match firstTagCapture (("w:rPr").data) run_xml with
                | some rpr_xml => parse_run_properties rpr_xml RunProperties.default
                | none => RunProperties.default
              let run : Run := { text := text, properties := props }
              if !run.text.isEmpty || !run.properties.is_default then [run] else []
        if !runs.isEmpty then
          [{ text := (runs.map Run.text).flatten,
             properties := ParagraphProperties.default, runs := runs }]
        else []
  { text := ((paragraphs.map Paragraph.text).intersperse ['\n']).flatten,
    paragraphs := paragraphs }

/-- The OPC package: named parts with textual content (`String.from_utf8_lossy`
is modelled by working over text directly). -/
structure OpcPackage where
  parts : List (Str × Str)

/-- Lookup `OpcPackage::get_part`. -/
def OpcPackage.get_part (pkg : OpcPackage) (name : Str) : Option Str :=
  (pkg.parts.find? (fun pr => pr.1 == name)).map Prod.snd

/-- OOXML errors relevant to the main-document path. -/
inductive OoxmlError where
  | PartNotFound (name : Str)
  deriving DecidableEq, Repr

/-- Port of `WordDocument::parse` restricted to its text/paragraph outcome: fails if
`word/document.xml` is absent, otherwise parses the main document body. -/
def WordDocument.parse (pkg : OpcPackage) : Except OoxmlError WordDocument :=
  match pkg.get_part (("/word/document.xml").data) with
  | none => .error (.PartNotFound (("/word/document.xml").data))
  | some xml => .ok (parse_main_document xml)

end Ooxml

/-! ## Basic lemmas about pieces and text -/

theorem pieceText_length {pt : PieceTree} {p : Piece} (h : pt.pieceWF p) :
    (pt.pieceText p).length = p.length := by
  rcases h with ⟨hb, -, -⟩
  simp only [PieceTree.pieceText, List.length_take, List.length_drop]
  omega

theorem getText_length {pt : PieceTree} (h : pt.WF) :
    pt.getText.length = pt.docLength := by
  unfold PieceTree.getText PieceTree.docLength
  rw [List.length_flatten, List.map_map]
  congr 1
  apply List.map_congr_left
  intro p hp
  exact pieceText_length (h p hp)

theorem computeLineStarts_append (a b : Str) :
    computeLineStarts (a ++ b)
      = computeLineStarts a ++ (computeLineStarts b).map (· + a.length) := by
  induction a with
  | nil => simp [computeLineStarts]
  | cons c rest ih =>
      by_cases hc : c = '\n' <;>
        simp [computeLineStarts, hc, ih, List.map_map, Function.comp_def, Nat.add_assoc]

theorem computeLineStarts_length (t : Str) :
    (computeLineStarts t).length = t.count '\n' := by
  induction t with
  | nil => rfl
  | cons c rest ih =>
      simp only [computeLineStarts, List.count_cons]
      by_cases hc : c = '\n' <;> simp [hc, ih]

theorem drop_take_of_append {a b : Str} {s l : Nat} (h : s + l ≤ a.length) :
    ((a ++ b).drop s).take l = (a.drop s).take l := by
  rw [List.drop_append_of_le_length (by omega), List.take_append_of_le_length]
  simp only [List.length_drop]
  omega

/-- Appending to the added buffer changes no existing in-bounds piece's
text. -/
theorem pieceText_append_added {pt : PieceTree} {p : Piece} (t : Str)
    (h : p.start + p.length ≤ (pt.buffer p.buffer_id).length) :
    PieceTree.pieceText { pt with added := pt.added ++ t } p = pt.pieceText p := by
  cases hbid : p.buffer_id with
  | original => simp [PieceTree.pieceText, PieceTree.buffer, hbid]
  | added =>
      simp only [PieceTree.pieceText, PieceTree.buffer, hbid] at h ⊢
      exact drop_take_of_append h

/-- Appending to the added buffer preserves well-formedness of existing
pieces. -/
theorem pieceWF_append_added {pt : PieceTree} {p : Piece} (t : Str)
    (h : pt.pieceWF p) :
    PieceTree.pieceWF { pt with added := pt.added ++ t } p := by
  obtain ⟨hb, hl, hc⟩ := h
  refine ⟨?_, hl, ?_⟩
  · cases hbid : p.buffer_id <;>
      simp only [PieceTree.buffer, hbid, List.length_append] at hb ⊢ <;> omega
  · rw [pieceText_append_added t hb]
    exact hc

theorem mkPiece_pieceText (pt : PieceTree) (b : BufferId) (start len : Nat)
    (attrs : Option TextAttributes) :
    pt.pieceText (pt.mkPiece b start len attrs)
      = ((pt.buffer b).drop start).take len := rfl

theorem mkPiece_WF {pt : PieceTree} {b : BufferId} {start len : Nat}
    {attrs : Option TextAttributes}
    (hb : start + len ≤ (pt.buffer b).length) (hl : len ≠ 0) :
    pt.pieceWF (pt.mkPiece b start len attrs) :=
  ⟨hb, hl, rfl⟩

/-- The left remainder of splitting a piece at `k` references the first `k`
characters of the piece's text. -/
theorem pieceText_slice_left {pt : PieceTree} {p : Piece} {k : Nat}
    (hk : k ≤ p.length) (attrs : Option TextAttributes) :
    pt.pieceText (pt.mkPiece p.buffer_id p.start k attrs)
      = (pt.pieceText p).take k := by
  rw [mkPiece_pieceText, PieceTree.pieceText, List.take_take]
  congr 1
  omega

/-- The right remainder of a split starting `k` into a piece references the
piece's text from `k` on. -/
theorem pieceText_slice_right {pt : PieceTree} {p : Piece} (k : Nat)
    (attrs : Option TextAttributes) :
    pt.pieceText (pt.mkPiece p.buffer_id (p.start + k) (p.length - k) attrs)
      = (pt.pieceText p).drop k := by
  rw [mkPiece_pieceText, PieceTree.pieceText, List.drop_take, List.drop_drop]

/-- A mid-slice of a piece (starting `k` in, of length `m`) references
`take m` of the piece's text from `k` on. -/
theorem pieceText_slice_mid {pt : PieceTree} {p : Piece} {k m : Nat}
    (hm : k + m ≤ p.length) (attrs : Option TextAttributes) :
    pt.pieceText (pt.mkPiece p.buffer_id (p.start + k) m attrs)
      = ((pt.pieceText p).drop k).take m := by
  rw [mkPiece_pieceText, PieceTree.pieceText, List.drop_take, List.take_take,
    List.drop_drop]
  congr 1
  omega

/-! ## The range walk reads a substring of the concatenated text -/

theorem rangeWalk_eq {pt : PieceTree} :
    ∀ (ps : List Piece) (s l : Nat),
      (∀ p ∈ ps, (pt.pieceText p).length = p.length) →
      pt.rangeWalk ps s l = (((ps.map pt.pieceText).flatten).drop s).take l := by
  intro ps
  induction ps with
  | nil => intro s l _; simp [PieceTree.rangeWalk]
  | cons p ps ih =>
      intro s l h
      have hp : (pt.pieceText p).length = p.length := h p (List.mem_cons_self p ps)
      have hps : ∀ q ∈ ps, (pt.pieceText q).length = q.length :=
        fun q hq => h q (List.mem_cons_of_mem p hq)
      unfold PieceTree.rangeWalk
      simp only [List.map_cons, List.flatten_cons]
      by_cases hl : l = 0
      · simp [hl]
      · rw [if_neg hl]
        by_cases hs : p.length ≤ s
        · rw [if_pos hs, ih _ _ hps,
            List.drop_append_eq_append_drop,
            List.drop_of_length_le (show (pt.pieceText p).length ≤ s by omega), hp]
          simp
        · rw [if_neg hs, ih _ _ hps,
            List.drop_append_of_le_length (by omega : s ≤ (pt.pieceText p).length),
            List.take_append_eq_append_take]
          congr 1
          simp only [List.drop_drop, List.length_drop, Nat.zero_add, hp]
          congr 1
          omega

/-! ## Inserting into the piece sequence splices the new piece's text -/

theorem insertIntoPieces_flatten {pt : PieceTree} (np : Piece) :
    ∀ (ps : List Piece) (off : Nat),
      (∀ p ∈ ps, pt.pieceWF p) →
      off ≤ ((ps.map pt.pieceText).flatten).length →
      ((pt.insertIntoPieces np ps off).map pt.pieceText).flatten
        = ((ps.map pt.pieceText).flatten).take off
            ++ pt.pieceText np
            ++ ((ps.map pt.pieceText).flatten).drop off := by
  intro ps
  induction ps with
  | nil =>
      intro off _ hoff
      simp only [List.map_nil, List.flatten_nil, List.length_nil,
        Nat.le_zero] at hoff
      subst hoff
      simp [PieceTree.insertIntoPieces]
  | cons p ps ih =>
      intro off h hoff
      have hp : pt.pieceWF p := h p (List.mem_cons_self p ps)
      have hps : ∀ q ∈ ps, pt.pieceWF q :=
        fun q hq => h q (List.mem_cons_of_mem p hq)
      have hlen : (pt.pieceText p).length = p.length := pieceText_length hp
      simp only [List.map_cons, List.flatten_cons, List.length_append] at hoff ⊢
      by_cases h0 : off = 0
      · simp [PieceTree.insertIntoPieces, h0]
      · by_cases hin : off < p.length
        · rw [PieceTree.insertIntoPieces, if_neg h0, if_pos hin]
          simp only [List.map_cons, List.flatten_cons]
          rw [pieceText_slice_left (Nat.le_of_lt hin) p.attributes,
            pieceText_slice_right off p.attributes,
            List.take_append_of_le_length (by omega),
            List.drop_append_of_le_length (by omega)]
          simp [List.append_assoc]
        · rw [PieceTree.insertIntoPieces, if_neg h0, if_neg hin]
          simp only [List.map_cons, List.flatten_cons]
          rw [ih _ hps (by omega),
            List.take_append_eq_append_take,
            List.drop_append_eq_append_drop,
            List.take_of_length_le (show (pt.pieceText p).length ≤ off by omega),
            List.drop_of_length_le (show (pt.pieceText p).length ≤ off by omega),
            hlen]
          simp [List.append_assoc]

/-- Every piece produced by the insert walk is well formed: the new piece,
an untouched old piece, or a nonempty split remainder of an old piece. -/
theorem insertIntoPieces_WF {pt : PieceTree} {np : Piece} (hnp : pt.pieceWF np) :
    ∀ (ps : List Piece) (off : Nat), (∀ p ∈ ps, pt.pieceWF p) →
      ∀ q ∈ pt.insertIntoPieces np ps off, pt.pieceWF q := by
  intro ps
  induction ps with
  | nil =>
      intro off _ q hq
      simp only [PieceTree.insertIntoPieces, List.mem_singleton] at hq
      subst hq; exact hnp
  | cons p ps ih =>
      intro off h q hq
      have hp : pt.pieceWF p := h p (List.mem_cons_self p ps)
      have hps : ∀ r ∈ ps, pt.pieceWF r :=
        fun r hr => h r (List.mem_cons_of_mem p hr)
      have hb : p.start + p.length ≤ (pt.buffer p.buffer_id).length := hp.1
      by_cases h0 : off = 0
      · rw [PieceTree.insertIntoPieces, if_pos h0] at hq
        simp only [List.mem_cons] at hq
        rcases hq with rfl | rfl | hq
        · exact hnp
        · exact hp
        · exact hps q hq
      · by_cases hin : off < p.length
        · rw [PieceTree.insertIntoPieces, if_neg h0, if_pos hin] at hq
          simp only [List.mem_cons] at hq
          rcases hq with rfl | rfl | rfl | hq
          · exact mkPiece_WF (by omega) h0
          · exact hnp
          · exact mkPiece_WF (by omega) (by omega)
          · exact hps q hq
        · rw [PieceTree.insertIntoPieces, if_neg h0, if_neg hin] at hq
          simp only [List.mem_cons] at hq
          rcases hq with rfl | hq
          · exact hp
          · exact ih (off - p.length) hps q hq

/-! ## Deleting from the piece sequence removes the deleted span -/

theorem deleteFromPieces_flatten {pt : PieceTree} :
    ∀ (ps : List Piece) (off len : Nat),
      (∀ p ∈ ps, (pt.pieceText p).length = p.length) →
      ((pt.deleteFromPieces ps off len).map pt.pieceText).flatten
        = ((ps.map pt.pieceText).flatten).take off
            ++ ((ps.map pt.pieceText).flatten).drop (off + len) := by
  intro ps
  induction ps with
  | nil => intro off len _; simp [PieceTree.deleteFromPieces]
  | cons p ps ih =>
      intro off len h
      have hlen : (pt.pieceText p).length = p.length :=
        h p (List.mem_cons_self p ps)
      have hps : ∀ q ∈ ps, (pt.pieceText q).length = q.length :=
        fun q hq => h q (List.mem_cons_of_mem p hq)
      simp only [List.map_cons, List.flatten_cons]
      by_cases hl0 : len = 0
      · rw [PieceTree.deleteFromPieces, if_pos hl0]
        simp [hl0, List.map_cons, List.flatten_cons]
      · by_cases hoff : p.length ≤ off
        · rw [PieceTree.deleteFromPieces, if_neg hl0, if_pos hoff]
          simp only [List.map_cons, List.flatten_cons]
          rw [ih _ _ hps,
            List.take_append_eq_append_take,
            List.drop_append_eq_append_drop,
            List.take_of_length_le (show (pt.pieceText p).length ≤ off by omega),
            List.drop_of_length_le (show (pt.pieceText p).length ≤ off + len by omega),
            hlen]
          have harith : off + len - p.length = off - p.length + len := by omega
          simp [List.append_assoc, harith]
        · rw [PieceTree.deleteFromPieces, if_neg hl0, if_neg hoff]
          simp only [List.map_append, List.flatten_append]
          rw [ih _ _ hps]
          -- the left remainder's text is `take off` of the piece's text
          have hleft :
              ((if off = 0 then ([] : List Piece)
                else [pt.mkPiece p.buffer_id p.start off p.attributes]).map
                  pt.pieceText).flatten = (pt.pieceText p).take off := by
            by_cases hz : off = 0
            · simp [hz]
            · simp only [if_neg hz, List.map_cons, List.map_nil,
                List.flatten_cons, List.flatten_nil, List.append_nil]
              exact pieceText_slice_left (by omega) p.attributes
          -- the right remainder's text is `drop (off + deleted)` of it
          have hright :
              ((if p.length - (off + min len (p.length - off)) = 0 then ([] : List Piece)
                else [pt.mkPiece p.buffer_id (p.start + off + min len (p.length - off))
                  (p.length - (off + min len (p.length - off))) p.attributes]).map
                  pt.pieceText).flatten
                = (pt.pieceText p).drop (off + min len (p.length - off)) := by
            by_cases hr : p.length - (off + min len (p.length - off)) = 0
            · rw [if_pos hr, List.map_nil, List.flatten_nil,
                List.drop_of_length_le (by omega)]
            · rw [if_neg hr]
              simp only [List.map_cons, List.map_nil, List.flatten_cons,
                List.flatten_nil, List.append_nil]
              rw [show p.start + off + min len (p.length - off)
                    = p.start + (off + min len (p.length - off)) by omega]
              exact pieceText_slice_right _ p.attributes
          rw [hleft, hright,
            List.take_append_of_le_length (show off ≤ (pt.pieceText p).length by omega),
            List.drop_append_eq_append_drop]
          -- both texts of the piece agree: the drops coincide in both cases
          have hdropp : (pt.pieceText p).drop (off + min len (p.length - off))
              = (pt.pieceText p).drop (off + len) := by
            by_cases hsplit : len ≤ p.length - off
            · rw [Nat.min_eq_left hsplit]
            · rw [List.drop_of_length_le (by omega),
                List.drop_of_length_le (by omega)]
          have hdropr : 0 + (len - min len (p.length - off))
              = off + len - (pt.pieceText p).length := by omega
          rw [hdropp, hdropr]
          simp [List.append_assoc]

/-- Every piece produced by the delete walk is well formed. -/
theorem deleteFromPieces_WF {pt : PieceTree} :
    ∀ (ps : List Piece) (off len : Nat), (∀ p ∈ ps, pt.pieceWF p) →
      ∀ q ∈ pt.deleteFromPieces ps off len, pt.pieceWF q := by
  intro ps
  induction ps with
  | nil => intro off len _ q hq; simp [PieceTree.deleteFromPieces] at hq
  | cons p ps ih =>
      intro off len h q hq
      have hp : pt.pieceWF p := h p (List.mem_cons_self p ps)
      have hps : ∀ r ∈ ps, pt.pieceWF r :=
        fun r hr => h r (List.mem_cons_of_mem p hr)
      have hb : p.start + p.length ≤ (pt.buffer p.buffer_id).length := hp.1
      by_cases hl0 : len = 0
      · rw [PieceTree.deleteFromPieces, if_pos hl0] at hq
        simp only [List.mem_cons] at hq
        rcases hq with rfl | hq
        · exact hp
        · exact hps q hq
      · by_cases hoff : p.length ≤ off
        · rw [PieceTree.deleteFromPieces, if_neg hl0, if_pos hoff] at hq
          simp only [List.mem_cons] at hq
          rcases hq with rfl | hq
          · exact hp
          · exact ih _ _ hps q hq
        · rw [PieceTree.deleteFromPieces, if_neg hl0, if_neg hoff] at hq
          simp only [List.mem_append] at hq
          rcases hq with (hq | hq) | hq
          · by_cases hz : off = 0
            · simp [hz] at hq
            · rw [if_neg hz, List.mem_singleton] at hq
              subst hq
              exact mkPiece_WF (by omega) hz
          · by_cases hr : p.length - (off + min len (p.length - off)) = 0
            · simp [hr] at hq
            · rw [if_neg hr, List.mem_singleton] at hq
              subst hq
              exact mkPiece_WF (by omega) hr
          · exact ih _ _ hps q hq

/-! ## Operation-level correctness of the Text Store -/

theorem insert_error_iff {pt : PieceTree} {o : Nat} {t : Str} :
    pt.insert o t = .error .OutOfRange ↔ o > pt.docLength := by
  unfold PieceTree.insert
  by_cases h : o > pt.docLength
  · simp [h]
  · by_cases ht : t.isEmpty <;> simp [h, ht]

/-- A successful in-bounds insert: the result is well formed and its text is
the reference model's splice. -/
theorem insert_ok {pt : PieceTree} {o : Nat} {t : Str} (hwf : pt.WF)
    (ho : o ≤ pt.docLength) :
    ∃ pt', pt.insert o t = .ok pt' ∧ pt'.WF ∧
      pt'.getText = refInsert pt.getText o t := by
  unfold PieceTree.insert
  rw [if_neg (by omega)]
  by_cases ht : t.isEmpty
  · rw [if_pos ht]
    refine ⟨pt, rfl, hwf, ?_⟩
    rw [List.isEmpty_iff.mp ht]
    simp [refInsert]
  · rw [if_neg ht]
    set pt2 : PieceTree := { pt with added := pt.added ++ t } with hpt2
    set np := pt2.mkPiece .added pt.added.length t.length none with hnp
    have hnpWF : pt2.pieceWF np := by
      apply mkPiece_WF
      · simp [hpt2, PieceTree.buffer]
      · simpa [List.isEmpty_iff, List.length_eq_zero] using ht
    have holdWF : ∀ p ∈ pt.pieces, pt2.pieceWF p :=
      fun p hp => pieceWF_append_added t (hwf p hp)
    have htexts : pt.pieces.map pt2.pieceText = pt.pieces.map pt.pieceText :=
      List.map_congr_left fun p hp => pieceText_append_added t (hwf p hp).1
    have hflat : ((pt.pieces.map pt2.pieceText).flatten) = pt.getText := by
      rw [htexts]; rfl
    have hbound : o ≤ ((pt.pieces.map pt2.pieceText).flatten).length := by
      rw [hflat, getText_length hwf]; exact ho
    refine ⟨_, rfl, ?_, ?_⟩
    · intro q hq
      exact insertIntoPieces_WF hnpWF pt.pieces o holdWF q hq
    · show ((pt2.insertIntoPieces np pt.pieces o).map pt2.pieceText).flatten
        = refInsert pt.getText o t
      rw [insertIntoPieces_flatten np pt.pieces o holdWF hbound, hflat]
      have hnptext : pt2.pieceText np = t := by
        rw [hnp, mkPiece_pieceText]
        show ((pt.added ++ t).drop pt.added.length).take t.length = t
        rw [List.drop_left, List.take_length]
      rw [hnptext]
      rfl

theorem delete_error_iff {pt : PieceTree} {o l : Nat} :
    pt.delete o l = .error .OutOfRange ↔ o + l > pt.docLength := by
  unfold PieceTree.delete
  by_cases h : o + l > pt.docLength <;> simp [h]

/-- A successful in-bounds delete: the removed text is the deleted substring,
the result is well formed, and its text is the reference model's excision. -/
theorem delete_ok {pt : PieceTree} {o l : Nat} (hwf : pt.WF)
    (ho : o + l ≤ pt.docLength) :
    ∃ pt', pt.delete o l = .ok (pt', ((pt.getText).drop o).take l) ∧ pt'.WF ∧
      pt'.getText = refDelete pt.getText o l := by
  unfold PieceTree.delete
  rw [if_neg (by omega)]
  have hlens : ∀ p ∈ pt.pieces, (pt.pieceText p).length = p.length :=
    fun p hp => pieceText_length (hwf p hp)
  refine ⟨{ pt with pieces := pt.deleteFromPieces pt.pieces o l }, ?_, ?_, ?_⟩
  · rw [rangeWalk_eq pt.pieces o l hlens]
    rfl
  · intro q hq
    exact deleteFromPieces_WF pt.pieces o l hwf q hq
  · show ((pt.deleteFromPieces pt.pieces o l).map pt.pieceText).flatten
      = refDelete pt.getText o l
    rw [deleteFromPieces_flatten pt.pieces o l hlens]
    rfl

/-- One operation through the store agrees with the reference model, and
preserves well-formedness. -/
theorem applyOp_correct {pt : PieceTree} (hwf : pt.WF) (op : EditOp) :
    ((pt.applyOp op).map PieceTree.getText = refApplyOp pt.getText op) ∧
    ∀ pt', pt.applyOp op = .ok pt' → pt'.WF := by
  have hlen : pt.getText.length = pt.docLength := getText_length hwf
  cases op with
  | insert o t =>
      by_cases ho : o ≤ pt.docLength
      · obtain ⟨pt', he, hwf', htext⟩ := insert_ok (t := t) hwf ho
        constructor
        · rw [PieceTree.applyOp, he]
          simp only [Except.map, refApplyOp]
          rw [if_neg (by omega), htext]
        · intro pt'' h''
          rw [PieceTree.applyOp, he] at h''
          cases h''
          exact hwf'
      · have he : pt.insert o t = .error .OutOfRange := insert_error_iff.mpr (by omega)
        constructor
        · rw [PieceTree.applyOp, he]
          simp only [Except.map, refApplyOp]
          rw [if_pos (by omega)]
        · intro pt'' h''
          rw [PieceTree.applyOp, he] at h''
          cases h''
  | delete o l =>
      by_cases ho : o + l ≤ pt.docLength
      · obtain ⟨pt', he, hwf', htext⟩ := delete_ok hwf ho
        constructor
        · rw [PieceTree.applyOp, he]
          simp only [Except.map, refApplyOp]
          rw [if_neg (by omega), htext]
        · intro pt'' h''
          rw [PieceTree.applyOp, he] at h''
          cases h''
          exact hwf'
      · have he : pt.delete o l = .error .OutOfRange := delete_error_iff.mpr (by omega)
        constructor
        · rw [PieceTree.applyOp, he]
          simp only [Except.map, refApplyOp]
          rw [if_pos (by omega)]
        · intro pt'' h''
          rw [PieceTree.applyOp, he] at h''
          cases h''

/-- A sequence of operations through the store agrees with the reference
model. -/
theorem applyOps_correct {pt : PieceTree} (hwf : pt.WF) (ops : List EditOp) :
    (pt.applyOps ops).map PieceTree.getText = refApplyOps pt.getText ops := by
  induction ops generalizing pt with
  | nil => rfl
  | cons op rest ih =>
      obtain ⟨hmap, hpres⟩ := applyOp_correct hwf op
      rw [PieceTree.applyOps, refApplyOps]
      cases he : pt.applyOp op with
      | error e =>
          rw [he] at hmap
          simp only [Except.map] at hmap
          rw [← hmap]
          rfl
      | ok pt' =>
          rw [he] at hmap
          simp only [Except.map] at hmap
          rw [← hmap]
          simpa [Except.bind] using ih (hpres pt' he)

theorem new_WF (s : Str) : (PieceTree.new s).WF := by
  intro p hp
  unfold PieceTree.new at hp
  by_cases hs : s.isEmpty
  · simp [hs] at hp
  · rw [if_neg hs, List.mem_singleton] at hp
    subst hp
    refine ⟨by simp [PieceTree.new, PieceTree.buffer],
      by simpa [List.isEmpty_iff, List.length_eq_zero] using hs, ?_⟩
    simp [PieceTree.pieceText, PieceTree.new, PieceTree.buffer]

theorem new_getText (s : Str) : (PieceTree.new s).getText = s := by
  unfold PieceTree.getText PieceTree.new
  by_cases hs : s.isEmpty
  · rw [if_pos hs, List.isEmpty_iff.mp hs]
    rfl
  · rw [if_neg hs]
    simp [PieceTree.pieceText, PieceTree.new, PieceTree.buffer]

/-! ## Line structure -/

theorem piecesTerminators_eq {pt : PieceTree} :
    ∀ ps, (∀ p ∈ ps, pt.pieceWF p) →
      piecesTerminators ps = computeLineStarts ((ps.map pt.pieceText).flatten) := by
  intro ps
  induction ps with
  | nil => intro _; rfl
  | cons p ps ih =>
      intro h
      have hp : pt.pieceWF p := h p (List.mem_cons_self p ps)
      have hps : ∀ q ∈ ps, pt.pieceWF q :=
        fun q hq => h q (List.mem_cons_of_mem p hq)
      rw [piecesTerminators, List.map_cons, List.flatten_cons,
        computeLineStarts_append, ← hp.2.2, ih hps, pieceText_length hp]

theorem piecesTerminators_length (ps : List Piece) :
    (piecesTerminators ps).length
      = (ps.map (fun p => p.line_starts.length)).sum := by
  induction ps with
  | nil => rfl
  | cons p ps ih => simp [piecesTerminators, ih]

theorem getText_nil_iff {pt : PieceTree} (hwf : pt.WF) :
    pt.getText = [] ↔ pt.pieces = [] := by
  constructor
  · intro h
    cases hps : pt.pieces with
    | nil => rfl
    | cons p ps =>
        exfalso
        have hp : pt.pieceWF p := hwf p (by rw [hps]; exact List.mem_cons_self p ps)
        have hlen : pt.getText.length = pt.docLength := getText_length hwf
        rw [h] at hlen
        unfold PieceTree.docLength at hlen
        rw [hps] at hlen
        simp only [List.map_cons, List.sum_cons, List.length_nil] at hlen
        have := hp.2.1
        omega
  · intro h
    unfold PieceTree.getText
    rw [h]
    rfl

theorem get_line_count_eq {pt : PieceTree} (hwf : pt.WF) :
    pt.get_line_count
      = if pt.getText = [] then 0 else pt.getText.count '\n' + 1 := by
  unfold PieceTree.get_line_count
  by_cases hps : pt.pieces = []
  · rw [if_pos (by simp [hps]), if_pos ((getText_nil_iff hwf).mpr hps)]
  · rw [if_neg (by simp [hps]), if_neg (by
      intro hcon
      exact hps ((getText_nil_iff hwf).mp hcon))]
    congr 1
    rw [← piecesTerminators_length, piecesTerminators_eq pt.pieces hwf,
      computeLineStarts_length]
    rfl

/-! ## Range reads -/

theorem get_text_range_eq {pt : PieceTree} (hwf : pt.WF) (o l : Nat) :
    pt.get_text_range o l
      = ((pt.getText).drop (min o pt.docLength)).take
          (min (o + l) pt.docLength - min o pt.docLength) := by
  unfold PieceTree.get_text_range
  rw [rangeWalk_eq _ _ _ (fun p hp => pieceText_length (hwf p hp))]
  rfl

/-! ## Splice algebra of the reference model -/

theorem take_mid_drop (d : Str) (o l : Nat) :
    d.take o ++ ((d.drop o).take l ++ d.drop (o + l)) = d := by
  rw [← List.drop_drop, List.take_append_drop, List.take_append_drop]

/-- Deleting a just-inserted span restores the original text. -/
theorem refDelete_refInsert (d : Str) {o : Nat} (t : Str) (ho : o ≤ d.length) :
    refDelete (refInsert d o t) o t.length = d := by
  unfold refInsert refDelete
  have hlen : (d.take o).length = o := by
    rw [List.length_take]; omega
  rw [List.append_assoc,
    List.take_append_of_le_length (show o ≤ (d.take o).length by omega),
    List.take_of_length_le (show (d.take o).length ≤ o by omega),
    List.drop_append_eq_append_drop,
    List.drop_of_length_le (show (d.take o).length ≤ o + t.length by omega),
    hlen,
    show o + t.length - o = t.length by omega,
    List.drop_left, List.nil_append,
    List.take_append_drop]

/-- Re-inserting a just-deleted span restores the original text. -/
theorem refInsert_refDelete (d : Str) {o l : Nat} (ho : o ≤ d.length) :
    refInsert (refDelete d o l) o ((d.drop o).take l) = d := by
  unfold refInsert refDelete
  have hlen : (d.take o).length = o := by
    rw [List.length_take]; omega
  rw [List.take_append_of_le_length (show o ≤ (d.take o).length by omega),
    List.take_of_length_le (show (d.take o).length ≤ o by omega),
    List.drop_append_eq_append_drop,
    List.drop_of_length_le (show (d.take o).length ≤ o by omega),
    hlen, Nat.sub_self, List.drop_zero, List.nil_append,
    List.append_assoc]
  exact take_mid_drop d o l

/-- Two adjacent insertions coalesce into one insertion of the
concatenation. -/
theorem refInsert_refInsert_adjacent (d : Str) {o : Nat} (t₁ t₂ : Str)
    (ho : o ≤ d.length) :
    refInsert (refInsert d o t₁) (o + t₁.length) t₂ = refInsert d o (t₁ ++ t₂) := by
  unfold refInsert
  have hlen : (d.take o).length = o := by
    rw [List.length_take]; omega
  have hlen2 : (d.take o ++ t₁).length = o + t₁.length := by
    simp [hlen]
  rw [List.take_append_eq_append_take,
    List.drop_append_eq_append_drop,
    List.take_of_length_le (le_of_eq hlen2),
    List.drop_of_length_le (le_of_eq hlen2),
    hlen2, Nat.sub_self, List.take_zero, List.drop_zero, List.nil_append]
  simp [List.append_assoc]

theorem refInsert_length (d t : Str) {o : Nat} (ho : o ≤ d.length) :
    (refInsert d o t).length = d.length + t.length := by
  unfold refInsert
  simp only [List.length_append, List.length_take, List.length_drop]
  omega

theorem refDelete_length (d : Str) {o l : Nat} (ho : o + l ≤ d.length) :
    (refDelete d o l).length = d.length - l := by
  unfold refDelete
  simp only [List.length_append, List.length_take, List.length_drop]
  omega

/-- A freshly inserted span is present at its offset in the result. -/
theorem refInsert_self_match (d t : Str) {o : Nat} (ho : o ≤ d.length) :
    ((refInsert d o t).drop o).take t.length = t := by
  unfold refInsert
  have hlen : (d.take o).length = o := by
    rw [List.length_take]; omega
  rw [List.append_assoc, List.drop_append_eq_append_drop,
    List.drop_of_length_le (le_of_eq hlen), hlen, Nat.sub_self, List.drop_zero,
    List.nil_append, List.take_left]

/-- Inserting right after a span present at `o₁` equals inserting the
concatenation at `o₁` into the text with that span removed. -/
theorem refInsert_merge_decomp {d t₁ : Str} {o₁ : Nat} (t₂ : Str)
    (hmatch : (d.drop o₁).take t₁.length = t₁) (ho : o₁ + t₁.length ≤ d.length) :
    refInsert d (o₁ + t₁.length) t₂
      = refInsert (d.take o₁ ++ d.drop (o₁ + t₁.length)) o₁ (t₁ ++ t₂) := by
  have hd : refInsert (d.take o₁ ++ d.drop (o₁ + t₁.length)) o₁ t₁ = d := by
    unfold refInsert
    have hlen : (d.take o₁).length = o₁ := by
      rw [List.length_take]; omega
    rw [List.take_append_of_le_length (show o₁ ≤ (d.take o₁).length by omega),
      List.take_of_length_le (show (d.take o₁).length ≤ o₁ by omega),
      List.drop_append_eq_append_drop,
      List.drop_of_length_le (show (d.take o₁).length ≤ o₁ by omega),
      hlen, Nat.sub_self, List.drop_zero, List.nil_append]
    conv_rhs => rw [← take_mid_drop d o₁ t₁.length]
    rw [hmatch]
    simp [List.append_assoc]
  conv_lhs => rw [← hd]
  rw [refInsert_refInsert_adjacent _ t₁ t₂
    (by simp only [List.length_append, List.length_take, List.length_drop]; omega)]

/-- After inserting adjacent to a present span, the concatenated span is
present at the original offset. -/
theorem refInsert_adjacent_match {d t₁ : Str} {o₁ : Nat} (t₂ : Str)
    (hmatch : (d.drop o₁).take t₁.length = t₁) (ho : o₁ + t₁.length ≤ d.length) :
    ((refInsert d (o₁ + t₁.length) t₂).drop o₁).take (t₁ ++ t₂).length = t₁ ++ t₂ := by
  rw [refInsert_merge_decomp t₂ hmatch ho]
  exact refInsert_self_match _ _
    (by simp only [List.length_append, List.length_take, List.length_drop]; omega)

/-- Evicting one record from the front does not change the most recent
record, as long as the bound is positive and the stack is nonempty. -/
theorem evict_getLast (l : List CommandRecord) (m : Nat) (hm : 0 < m) :
    (if l.length > m then l.drop 1 else l).getLast? = l.getLast? := by
  by_cases hev : l.length > m
  · rw [if_pos hev, List.getLast?_drop, if_neg (by omega)]
  · rw [if_neg hev]

/-- After a successful execute from a consistent session, the store is well
formed, the redo stack is cleared, and the new top undo record fits the new
document text. -/
theorem execute_top_fits {s : Session} {op : EditOp} {ts : Nat} {s1 : Session}
    (hwf : s.store.WF) (htop : s.TopOk) (hmax : 0 < s.history.max_history_size)
    (hex : s.execute op ts = .ok s1) :
    s1.store.WF ∧ s1.history.redo_stack = [] ∧
      ∃ r, s1.history.undo_stack.getLast? = some r ∧
        commandFits s1.store.getText r.command := by
  have hn : s.store.getText.length = s.store.docLength := getText_length hwf
  cases op with
  | insert o t =>
      rw [Session.execute] at hex
      cases hins : s.store.insert o t with
      | error e =>
          rw [hins] at hex
          cases hex
      | ok store1 =>
          rw [hins] at hex
          cases hex
          have ho : o ≤ s.store.docLength := by
            by_contra hcon
            rw [insert_error_iff.mpr (by omega)] at hins
            cases hins
          obtain ⟨pt', he, hwf1, htext⟩ := insert_ok (o := o) (t := t) hwf ho
          rw [he] at hins
          cases hins
          refine ⟨hwf1, rfl, ?_⟩
          cases hlast : s.history.undo_stack.getLast? with
          | none =>
              refine ⟨⟨.insertCmd o t, ⟨ts, (Command.insertCmd o t).opType⟩⟩, ?_, ?_, ?_⟩
              · show (s.history.record (.insertCmd o t) ts).undo_stack.getLast? = _
                simp only [UndoRedoManager.record, hlast]
                rw [evict_getLast _ _ hmax, List.getLast?_concat]
              · rw [htext]
                exact refInsert_self_match _ _ (by omega)
              · rw [htext, refInsert_length _ _ (by omega)]
                omega
          | some top =>
              by_cases helig :
                  mergeEligible s.history.merge_window_ms top (.insertCmd o t) ts = true
              · have hmatch := htop top hlast
                have hcontig : contiguous top.command (.insertCmd o t) = true := by
                  simp only [mergeEligible, Bool.and_eq_true] at helig
                  exact helig.2
                cases htopc : top.command with
                | deleteCmd oT lT rT =>
                    rw [htopc] at hcontig
                    simp [contiguous] at hcontig
                | insertCmd oT tT =>
                    rw [htopc] at hcontig
                    simp only [contiguous, decide_eq_true_eq] at hcontig
                    subst hcontig
                    simp only [recordMatches, htopc] at hmatch
                    have hoT : oT + tT.length ≤ s.store.getText.length := by omega
                    refine ⟨⟨mergeCommand top.command (.insertCmd (oT + tT.length) t),
                      ⟨ts, top.metadata.operation_type⟩⟩, ?_, ?_⟩
                    · show (s.history.record _ ts).undo_stack.getLast? = _
                      simp only [UndoRedoManager.record, hlast, if_pos helig]
                      rw [evict_getLast _ _ hmax, List.getLast?_concat]
                    · rw [htopc]
                      simp only [mergeCommand, commandFits]
                      constructor
                      · rw [htext]
                        exact refInsert_adjacent_match t hmatch hoT
                      · rw [htext, refInsert_length _ _ (by omega)]
                        simp only [List.length_append]
                        omega
              · refine ⟨⟨.insertCmd o t, ⟨ts, (Command.insertCmd o t).opType⟩⟩, ?_, ?_, ?_⟩
                · show (s.history.record (.insertCmd o t) ts).undo_stack.getLast? = _
                  simp only [UndoRedoManager.record, hlast, if_neg helig]
                  rw [evict_getLast _ _ hmax, List.getLast?_concat]
                · rw [htext]
                  exact refInsert_self_match _ _ (by omega)
                · rw [htext, refInsert_length _ _ (by omega)]
                  omega
  | delete o l =>
      rw [Session.execute] at hex
      cases hdel : s.store.delete o l with
      | error e =>
          rw [hdel] at hex
          cases hex
      | ok res =>
          obtain ⟨store1, removed⟩ := res
          rw [hdel] at hex
          cases hex
          have ho : o + l ≤ s.store.docLength := by
            by_contra hcon
            rw [delete_error_iff.mpr (by omega)] at hdel
            cases hdel
          obtain ⟨pt', he, hwf1, htext⟩ := delete_ok (o := o) (l := l) hwf ho
          rw [he] at hdel
          cases hdel
          have hremlen : ((s.store.getText.drop o).take l).length = l := by
            simp only [List.length_take, List.length_drop]
            omega
          have hd1len : store1.getText.length = s.store.getText.length - l := by
            rw [htext]
            exact refDelete_length _ (by omega)
          refine ⟨hwf1, rfl, ?_⟩
          cases hlast : s.history.undo_stack.getLast? with
          | none =>
              refine ⟨⟨.deleteCmd o l ((s.store.getText.drop o).take l),
                ⟨ts, (Command.deleteCmd o l ((s.store.getText.drop o).take l)).opType⟩⟩,
                ?_, hremlen, ?_⟩
              · show (s.history.record _ ts).undo_stack.getLast? = _
                simp only [UndoRedoManager.record, hlast]
                rw [evict_getLast _ _ hmax, List.getLast?_concat]
              · show o ≤ store1.getText.length
                omega
          | some top =>
              by_cases helig : mergeEligible s.history.merge_window_ms top
                  (.deleteCmd o l ((s.store.getText.drop o).take l)) ts = true
              · have hmatch := htop top hlast
                have hcontig : contiguous top.command
                    (.deleteCmd o l ((s.store.getText.drop o).take l)) = true := by
                  simp only [mergeEligible, Bool.and_eq_true] at helig
                  exact helig.2
                cases htopc : top.command with
                | insertCmd oT tT =>
                    rw [htopc] at hcontig
                    simp [contiguous] at hcontig
                | deleteCmd oT lT rT =>
                    rw [htopc] at hcontig
                    simp only [contiguous, Bool.or_eq_true, decide_eq_true_eq] at hcontig
                    simp only [recordMatches, htopc] at hmatch
                    refine ⟨⟨mergeCommand top.command
                      (.deleteCmd o l ((s.store.getText.drop o).take l)),
                      ⟨ts, top.metadata.operation_type⟩⟩, ?_, ?_⟩
                    · show (s.history.record _ ts).undo_stack.getLast? = _
                      simp only [UndoRedoManager.record, hlast, if_pos helig]
                      rw [evict_getLast _ _ hmax, List.getLast?_concat]
                    · rw [htopc]
                      simp only [mergeCommand]
                      by_cases hback : o + l = oT
                      · rw [if_pos hback]
                        refine ⟨?_, ?_⟩
                        · simp only [List.length_append]
                          omega
                        · omega
                      · rw [if_neg hback]
                        refine ⟨?_, ?_⟩
                        · simp only [List.length_append]
                          omega
                        · rcases hcontig with hcon | hcon
                          · exact absurd hcon hback
                          · omega
              · refine ⟨⟨.deleteCmd o l ((s.store.getText.drop o).take l),
                  ⟨ts, (Command.deleteCmd o l ((s.store.getText.drop o).take l)).opType⟩⟩,
                  ?_, hremlen, ?_⟩
                · show (s.history.record _ ts).undo_stack.getLast? = _
                  simp only [UndoRedoManager.record, hlast, if_neg helig]
                  rw [evict_getLast _ _ hmax, List.getLast?_concat]
                · show o ≤ store1.getText.length
                  omega

/-! ## Undoing and redoing one command -/

/-- Applying the inverse of a fitting command and then the command itself
succeeds and restores the document text. -/
theorem command_roundtrip {store1 : PieceTree} (hwf1 : store1.WF) (c : Command)
    (hfit : commandFits store1.getText c) :
    ∃ store2, applyInverse store1 c = .ok store2 ∧ store2.WF ∧
      ∃ store3, applyCommand store2 c = .ok store3 ∧ store3.WF ∧
        store3.getText = store1.getText := by
  have hn1 : store1.getText.length = store1.docLength := getText_length hwf1
  cases c with
  | insertCmd o t =>
      obtain ⟨hmatch, hbound⟩ := hfit
      obtain ⟨store2, hdel, hwf2, htext2⟩ :=
        delete_ok (o := o) (l := t.length) hwf1 (by omega)
      refine ⟨store2, ?_, hwf2, ?_⟩
      · rw [applyInverse, hdel]
        rfl
      · have hn2 : store2.getText.length = store2.docLength := getText_length hwf2
        have hlen2 : store2.getText.length = store1.getText.length - t.length := by
          rw [htext2]
          unfold refDelete
          simp only [List.length_append, List.length_take, List.length_drop]
          omega
        obtain ⟨store3, hins, hwf3, htext3⟩ :=
          insert_ok (o := o) (t := t) hwf2 (by omega)
        refine ⟨store3, ?_, hwf3, ?_⟩
        · rw [applyCommand]
          exact hins
        · rw [htext3, htext2]
          have hrestore :=
            refInsert_refDelete (o := o) (l := t.length) store1.getText (by omega)
          rw [hmatch] at hrestore
          exact hrestore
  | deleteCmd o l rt =>
      obtain ⟨hlen, hbound⟩ := hfit
      obtain ⟨store2, hins, hwf2, htext2⟩ :=
        insert_ok (o := o) (t := rt) hwf1 (by omega)
      refine ⟨store2, ?_, hwf2, ?_⟩
      · rw [applyInverse]
        exact hins
      · have hn2 : store2.getText.length = store2.docLength := getText_length hwf2
        have hlen2 : store2.getText.length = store1.getText.length + rt.length := by
          rw [htext2]
          unfold refInsert
          simp only [List.length_append, List.length_take, List.length_drop]
          omega
        obtain ⟨store3, hdel, hwf3, htext3⟩ :=
          delete_ok (o := o) (l := l) hwf2 (by omega)
        refine ⟨store3, ?_, hwf3, ?_⟩
        · rw [applyCommand, hdel]
          rfl
        · rw [htext3, htext2, ← hlen]
          exact refDelete_refInsert store1.getText rt (by omega)

/-! ## Stack bookkeeping -/

theorem getLast?_dropLast_append {l : List CommandRecord} {a : CommandRecord}
    (h : l.getLast? = some a) : l.dropLast ++ [a] = l := by
  have hne : l ≠ [] := by
    rintro rfl
    simp at h
  have hval := List.getLast?_eq_getLast l hne
  rw [h, Option.some_inj] at hval
  rw [hval]
  exact List.dropLast_append_getLast hne

/-- On a successful delete, the returned removed text is the range walk and
the returned store is the trimmed store. -/
theorem delete_removed {pt store1 : PieceTree} {rem : Str} {o l : Nat}
    (h : pt.delete o l = .ok (store1, rem)) :
    rem = pt.rangeWalk pt.pieces o l ∧
      store1 = { pt with pieces := pt.deleteFromPieces pt.pieces o l } := by
  unfold PieceTree.delete at h
  by_cases hg : o + l > pt.docLength
  · rw [if_pos hg] at h
    cases h
  · rw [if_neg hg] at h
    cases h
    exact ⟨rfl, rfl⟩

/-- A successful execute records exactly the record `newRecord` describes. -/
theorem execute_history {s : Session} {op : EditOp} {ts : Nat} {s1 : Session}
    (hex : s.execute op ts = .ok s1) :
    s1.history = s.history.record (s.newRecord op ts).command ts := by
  cases op with
  | insert o t =>
      rw [Session.execute] at hex
      cases hins : s.store.insert o t with
      | error e =>
          rw [hins] at hex
          cases hex
      | ok store1 =>
          rw [hins] at hex
          cases hex
          rfl
  | delete o l =>
      rw [Session.execute] at hex
      cases hdel : s.store.delete o l with
      | error e =>
          rw [hdel] at hex
          cases hex
      | ok res =>
          obtain ⟨store1, removed⟩ := res
          rw [hdel] at hex
          cases hex
          obtain ⟨hrem, -⟩ := delete_removed hdel
          rw [Session.newRecord, hrem]

/-- When the new command does not merge, `record` appends the new record and
evicts from the front on overflow. -/
theorem record_noMerge_stack (h : UndoRedoManager) (nc : Command) (ts : Nat)
    (hnm : ∀ top ∈ h.undo_stack.getLast?,
      mergeEligible h.merge_window_ms top nc ts = false) :
    (h.record nc ts).undo_stack =
      (if (h.undo_stack ++
            [({ command := nc,
                metadata := { timestamp := ts, operation_type := nc.opType } } : CommandRecord)]).length
          > h.max_history_size
       then (h.undo_stack ++
            [({ command := nc,
                metadata := { timestamp := ts, operation_type := nc.opType } } : CommandRecord)]).drop 1
       else h.undo_stack ++
            [({ command := nc,
                metadata := { timestamp := ts, operation_type := nc.opType } } : CommandRecord)]) := by
  unfold UndoRedoManager.record
  cases hlast : h.undo_stack.getLast? with
  | none => rfl
  | some top =>
      have hne := hnm top hlast
      simp only [hne, Bool.false_eq_true, if_false]

/-- When the new command merges with the top record, `record` replaces the
top record by the merged one (and applies the same eviction rule). -/
theorem record_merge_stack (h : UndoRedoManager) (nc : Command) (ts : Nat)
    {top : CommandRecord} (hlast : h.undo_stack.getLast? = some top)
    (helig : mergeEligible h.merge_window_ms top nc ts = true) :
    ∀ m : CommandRecord,
      m = { command := mergeCommand top.command nc,
            metadata := { timestamp := ts,
                          operation_type := top.metadata.operation_type } } →
      (h.record nc ts).undo_stack =
        (if (h.undo_stack.dropLast ++ [m]).length > h.max_history_size
         then (h.undo_stack.dropLast ++ [m]).drop 1
         else h.undo_stack.dropLast ++ [m]) := by
  intro m hm
  subst hm
  simp [UndoRedoManager.record, hlast, helig]

/-- Recording never changes the bound or the merge window, and always clears
the redo stack. -/
theorem record_params (h : UndoRedoManager) (nc : Command) (ts : Nat) :
    (h.record nc ts).max_history_size = h.max_history_size ∧
    (h.record nc ts).merge_window_ms = h.merge_window_ms ∧
    (h.record nc ts).redo_stack = [] := by
  unfold UndoRedoManager.record
  exact ⟨rfl, rfl, rfl⟩

theorem traceRecords_length :
    ∀ (ops : List (EditOp × Nat)) (s : Session), s.NoMergeTrace ops →
      (s.traceRecords ops).length = ops.length := by
  intro ops
  induction ops with
  | nil => intro s _; rfl
  | cons oparg rest ih =>
      intro s hnm
      obtain ⟨op, ts⟩ := oparg
      obtain ⟨-, s', hexec, hrest⟩ := hnm
      rw [Session.traceRecords, hexec]
      simp only [List.length_cons]
      rw [ih s' hrest]

/-- Executing a non-merging all-successful trace keeps the undo stack equal
to the suffix of the already-recorded commands that fits in the bound,
evicting only from the front. -/
theorem executeAll_noMerge_stack :
    ∀ (ops : List (EditOp × Nat)) (s : Session),
      s.NoMergeTrace ops →
      s.history.undo_stack.length ≤ s.history.max_history_size →
      ∃ sf, s.executeAll ops = .ok sf ∧
        sf.history.max_history_size = s.history.max_history_size ∧
        sf.history.undo_stack
          = (s.history.undo_stack ++ s.traceRecords ops).drop
              (s.history.undo_stack.length + (s.traceRecords ops).length
                - s.history.max_history_size) ∧
        sf.history.undo_stack.length ≤ s.history.max_history_size := by
  intro ops
  induction ops with
  | nil =>
      intro s _ hbound
      refine ⟨s, rfl, rfl, ?_, hbound⟩
      show s.history.undo_stack
        = (s.history.undo_stack ++ ([] : List CommandRecord)).drop
            (s.history.undo_stack.length + ([] : List CommandRecord).length
              - s.history.max_history_size)
      simp only [List.append_nil, List.length_nil]
      rw [show s.history.undo_stack.length + 0 - s.history.max_history_size = 0 by omega,
        List.drop_zero]
  | cons oparg rest ih =>
      intro s hnm hbound
      obtain ⟨op, ts⟩ := oparg
      obtain ⟨hnomerge, s', hexec, hrest⟩ := hnm
      have hhist : s'.history = s.history.record (s.newRecord op ts).command ts :=
        execute_history hexec
      have hparams := record_params s.history (s.newRecord op ts).command ts
      have hrec : (⟨(s.newRecord op ts).command,
          ⟨ts, (s.newRecord op ts).command.opType⟩⟩ : CommandRecord)
            = s.newRecord op ts := by
        cases op <;> rfl
      have hstack : s'.history.undo_stack =
          (if (s.history.undo_stack ++ [s.newRecord op ts]).length
              > s.history.max_history_size
           then (s.history.undo_stack ++ [s.newRecord op ts]).drop 1
           else s.history.undo_stack ++ [s.newRecord op ts]) := by
        rw [hhist, record_noMerge_stack _ _ _ hnomerge, hrec]
      have hmax2 : s'.history.max_history_size = s.history.max_history_size := by
        rw [hhist]
        exact hparams.1
      have hbound2 : s'.history.undo_stack.length ≤ s'.history.max_history_size := by
        rw [hstack, hmax2]
        by_cases hev : (s.history.undo_stack ++ [s.newRecord op ts]).length
            > s.history.max_history_size
        · rw [if_pos hev]
          simp only [List.length_drop, List.length_append, List.length_singleton,
            List.length_cons, List.length_nil] at hev ⊢
          omega
        · rw [if_neg hev]
          simp only [List.length_append, List.length_singleton, List.length_cons,
            List.length_nil] at hev ⊢
          omega
      obtain ⟨sf, hrun, hmaxf, hstackf, hboundf⟩ := ih s' hrest hbound2
      refine ⟨sf, ?_, by rw [hmaxf, hmax2], ?_, by rw [← hmax2]; exact hboundf⟩
      · rw [Session.executeAll, hexec]
        exact hrun
      · have htr : s.traceRecords ((op, ts) :: rest)
            = s.newRecord op ts :: s'.traceRecords rest := by
          rw [Session.traceRecords, hexec]
        rw [htr, hstackf, hstack, hmax2]
        set S := s.history.undo_stack with hS
        set m := s.history.max_history_size with hm
        set r := s.newRecord op ts with hr
        set R := s'.traceRecords rest with hR
        by_cases hev : (S ++ [r]).length > m
        · rw [if_pos hev]
          have h1le : 1 ≤ (S ++ [r]).length := by
            simp only [List.length_append, List.length_singleton]
            omega
          have hdrop1 : (S ++ (r :: R)).drop 1 = ((S ++ [r]).drop 1) ++ R := by
            rw [List.append_cons S r R]
            exact List.drop_append_of_le_length h1le
          have hSm : S.length = m := by
            simp only [List.length_append, List.length_singleton] at hev
            omega
          have harg1 : (List.drop 1 (S ++ [r])).length + R.length - m = R.length := by
            simp only [List.length_drop, List.length_append, List.length_singleton]
            omega
          have harg2 : S.length + (r :: R).length - m = 1 + R.length := by
            simp only [List.length_cons]
            omega
          rw [harg1, harg2, ← List.drop_drop, hdrop1]
        · rw [if_neg hev, List.append_cons S r R]
          congr 1
          simp only [List.length_append, List.length_singleton, List.length_cons,
            List.length_nil] at hev ⊢
          omega

/-! ## Claim theorems -/

/-- C1: for every sequence of insert/delete operations, applying it through
the piece-table Text Store starting from a given initial text and observing
`get_text()` agrees, step for step, with the plain-string reference model:
out-of-bounds steps fail identically on both sides, and for sequences whose
offsets and lengths stay within bounds at each step the final `get_text()`
equals the reference model's final string. -/
theorem C1_insert_delete_roundtrip (s : Str) (ops : List EditOp) :
    ((PieceTree.new s).applyOps ops).map PieceTree.getText = refApplyOps s ops := by
  have h := applyOps_correct (new_WF s) ops
  rwa [new_getText] at h

/-- C5: on the write path, `insert` fails with `OutOfRange` exactly when the
offset exceeds the document length, and `delete` exactly when
offset + length exceeds it; failure is reported to the caller as an error
(never clamped), and a failing api mutation leaves the document text
unchanged. -/
theorem C5_write_path_bounds (pt : PieceTree) (o l : Nat) (t : Str)
    (hwf : pt.WF) :
    (pt.insert o t = .error .OutOfRange ↔ o > pt.getText.length) ∧
    ((∃ pt₂, pt.insert o t = .ok pt₂) ↔ o ≤ pt.getText.length) ∧
    (pt.delete o l = .error .OutOfRange ↔ o + l > pt.getText.length) ∧
    ((∃ res, pt.delete o l = .ok res) ↔ o + l ≤ pt.getText.length) ∧
    (o > pt.getText.length → Api.insert_text o t pt = (pt.getText, pt)) ∧
    (o + l > pt.getText.length → Api.delete_text o l pt = (pt.getText, pt)) := by
  have hn := getText_length hwf
  rw [hn]
  refine ⟨insert_error_iff, ?_, delete_error_iff, ?_, ?_, ?_⟩
  · constructor
    · rintro ⟨pt₂, he⟩
      by_contra hcon
      rw [insert_error_iff.mpr (by omega)] at he
      cases he
    · intro ho
      obtain ⟨pt₂, he, -, -⟩ := insert_ok (o := o) (t := t) hwf ho
      exact ⟨pt₂, he⟩
  · constructor
    · rintro ⟨res, he⟩
      by_contra hcon
      rw [delete_error_iff.mpr (by omega)] at he
      cases he
    · intro ho
      obtain ⟨pt₂, he, -, -⟩ := delete_ok (o := o) (l := l) hwf ho
      exact ⟨(pt₂, (pt.getText.drop o).take l), he⟩
  · intro ho
    unfold Api.insert_text
    rw [insert_error_iff.mpr (by omega)]
  · intro ho
    unfold Api.delete_text
    rw [delete_error_iff.mpr (by omega)]

/-- C5 witness: at a concrete one-character document, in-bounds operations
succeed, out-of-bounds ones fail with `OutOfRange`, and the failing api
calls leave the text unchanged. -/
theorem C5_write_path_bounds_witness :
    (PieceTree.new ['x']).WF ∧
    ((PieceTree.new ['x']).insert 2 ['y'] = .error .OutOfRange ↔
      2 > (PieceTree.new ['x']).getText.length) := by
  have h := C5_write_path_bounds (PieceTree.new ['x']) 2 1 ['y'] (by decide)
  exact ⟨by decide, h.1⟩

/-- C6: `get_text_range` never errors: it is a total function that clamps
the requested range to the document bounds and returns the clamped
substring of `get_text()`; for in-bounds arguments it returns exactly the
substring at the given offset of the given length. -/
theorem C6_get_text_range_clamps (pt : PieceTree) (o l : Nat) (hwf : pt.WF) :
    pt.get_text_range o l
      = ((pt.getText).drop (min o pt.getText.length)).take
          (min (o + l) pt.getText.length - min o pt.getText.length) ∧
    (o + l ≤ pt.getText.length →
      pt.get_text_range o l = ((pt.getText).drop o).take l) := by
  have hn := getText_length hwf
  constructor
  · rw [get_text_range_eq hwf, hn]
  · intro hin
    rw [get_text_range_eq hwf, ← hn,
      Nat.min_eq_left (by omega), Nat.min_eq_left (by omega),
      show o + l - o = l by omega]

/-- C6 witness: clamping at a concrete document, both in-bounds and far
out-of-bounds. -/
theorem C6_get_text_range_clamps_witness :
    (PieceTree.new ['a','b','c']).get_text_range 1 99 = ['b','c'] ∧
    (PieceTree.new ['a','b','c']).get_text_range 7 2 = [] ∧
    (PieceTree.new ['a','b','c']).get_text_range 1 2 = ['b','c'] := by
  have h := C6_get_text_range_clamps (PieceTree.new ['a','b','c']) 1 99 (by decide)
  refine ⟨?_, by decide, by decide⟩
  rw [h.1]
  decide

/-- C7: for the document "a\nbb\nccc" the line count is 3 and lines 0, 1, 2
are "a", "bb", "ccc" with the terminator excluded, line 3 is `none`; and for
every document, `get_line` returns `none` exactly when the line number is at
least `get_line_count`. -/
theorem C7_line_indexing :
    (PieceTree.new ['a','\n','b','b','\n','c','c','c']).get_line_count = 3 ∧
    (PieceTree.new ['a','\n','b','b','\n','c','c','c']).get_line 0 = some ['a'] ∧
    (PieceTree.new ['a','\n','b','b','\n','c','c','c']).get_line 1 = some ['b','b'] ∧
    (PieceTree.new ['a','\n','b','b','\n','c','c','c']).get_line 2 = some ['c','c','c'] ∧
    (PieceTree.new ['a','\n','b','b','\n','c','c','c']).get_line 3 = none ∧
    ∀ (pt : PieceTree) (n : Nat), pt.get_line n = none ↔ n ≥ pt.get_line_count := by
  refine ⟨by decide, by decide, by decide, by decide, by decide, ?_⟩
  intro pt n
  unfold PieceTree.get_line
  by_cases h : n ≥ pt.get_line_count
  · simp [h]
  · simp [h]

/-- C8: for every well-formed document, `get_line_count` is the number of
line terminators in the text plus one when the document is non-empty, and 0
for the empty document. -/
theorem C8_line_count (pt : PieceTree) (hwf : pt.WF) :
    pt.get_line_count
      = if pt.getText = [] then 0 else pt.getText.count '\n' + 1 :=
  get_line_count_eq hwf

/-- C8 witness: the empty document has line count 0; a document with no
terminator has one line; "a\nb" has two. -/
theorem C8_line_count_witness :
    PieceTree.emptyDoc.get_line_count = 0 ∧
    (PieceTree.new ['a','b']).get_line_count = 1 ∧
    (PieceTree.new ['a','\n','b']).get_line_count = 2 := by
  refine ⟨?_, ?_, ?_⟩
  · rw [C8_line_count PieceTree.emptyDoc (by decide)]
    decide
  · rw [C8_line_count (PieceTree.new ['a','b']) (by decide)]
    decide
  · rw [C8_line_count (PieceTree.new ['a','\n','b']) (by decide)]
    decide

/-- C2: for every consistent session and every successfully executed
command, `undo()` then `redo()` both succeed and restore the document text
to exactly the state immediately after the execute; undo applies the popped
record's inverse command to the Text Store and moves the record from the
undo stack to the redo stack. -/
theorem C2_undo_redo_restores (s : Session) (op : EditOp) (ts : Nat)
    (s1 : Session) (hwf : s.store.WF) (htop : s.TopOk)
    (hmax : 0 < s.history.max_history_size)
    (hex : s.execute op ts = .ok s1) :
    ∃ r s2 s3,
      s1.history.undo_stack.getLast? = some r ∧
      s1.undo = .ok s2 ∧
      applyInverse s1.store r.command = .ok s2.store ∧
      s2.history.undo_stack = s1.history.undo_stack.dropLast ∧
      s2.history.redo_stack = s1.history.redo_stack ++ [r] ∧
      s2.redo = .ok s3 ∧
      s3.store.getText = s1.store.getText := by
  obtain ⟨hwf1, hredo1, r, hr, hfits⟩ := execute_top_fits hwf htop hmax hex
  obtain ⟨store2, hinv, hwf2, store3, hfwd, hwf3, htext⟩ :=
    command_roundtrip hwf1 r.command hfits
  refine ⟨r, ⟨store2, { s1.history with
      undo_stack := s1.history.undo_stack.dropLast,
      redo_stack := s1.history.redo_stack ++ [r] }⟩,
    ⟨store3, { s1.history with
      undo_stack := s1.history.undo_stack.dropLast ++ [r],
      redo_stack := (s1.history.redo_stack ++ [r]).dropLast }⟩,
    hr, ?_, hinv, rfl, rfl, ?_, htext⟩
  · simp only [Session.undo, hr, hinv]
  · simp only [Session.redo, List.getLast?_concat, hfwd]

/-- C2 witness: a concrete insert on a fresh session, then undo and redo. -/
theorem C2_undo_redo_restores_witness :
    ∃ r s2 s3,
      (((Session.create 10 1000).execute (.insert 0 ['a']) 5).toOption.getD (Session.create 10 1000)).history.undo_stack.getLast? = some r ∧
      (((Session.create 10 1000).execute (.insert 0 ['a']) 5).toOption.getD (Session.create 10 1000)).undo = .ok s2 ∧
      applyInverse (((Session.create 10 1000).execute (.insert 0 ['a']) 5).toOption.getD (Session.create 10 1000)).store r.command = .ok s2.store ∧
      s2.history.undo_stack = (((Session.create 10 1000).execute (.insert 0 ['a']) 5).toOption.getD (Session.create 10 1000)).history.undo_stack.dropLast ∧
      s2.history.redo_stack = (((Session.create 10 1000).execute (.insert 0 ['a']) 5).toOption.getD (Session.create 10 1000)).history.redo_stack ++ [r] ∧
      s2.redo = .ok s3 ∧
      s3.store.getText = (((Session.create 10 1000).execute (.insert 0 ['a']) 5).toOption.getD (Session.create 10 1000)).store.getText :=
  C2_undo_redo_restores (Session.create 10 1000) (.insert 0 ['a']) 5 _
    (by decide) (by decide) (by decide) rfl

/-- C3: from a session with empty undo history, two executed Inserts of "a"
then "b" at consecutive offsets whose timestamps differ by at most
`merge_window_ms` produce exactly one undo stack entry, and a single undo
then removes both characters; with timestamps more than `merge_window_ms`
apart they produce exactly two entries. -/
theorem C3_merge_window (s : Session) (o ts₁ ts₂ : Nat) (a b : Char)
    (hwf : s.store.WF) (hempty : s.history.undo_stack = [])
    (hmax : 2 ≤ s.history.max_history_size)
    (ho : o ≤ s.store.docLength) (_hts : ts₁ ≤ ts₂) :
    ∃ s1 s2, s.execute (.insert o [a]) ts₁ = .ok s1 ∧
      s1.execute (.insert (o + 1) [b]) ts₂ = .ok s2 ∧
      (ts₂ - ts₁ ≤ s.history.merge_window_ms →
        s2.history.undo_stack.length = 1 ∧
        ∃ s3, s2.undo = .ok s3 ∧ s3.store.getText = s.store.getText) ∧
      (ts₂ - ts₁ > s.history.merge_window_ms →
        s2.history.undo_stack.length = 2) := by
  have hn : s.store.getText.length = s.store.docLength := getText_length hwf
  obtain ⟨store1, he1, hwf1, htext1⟩ := insert_ok (o := o) (t := [a]) hwf ho
  have hex1 : s.execute (.insert o [a]) ts₁
      = .ok ⟨store1, s.history.record (.insertCmd o [a]) ts₁⟩ := by
    simp only [Session.execute, he1]
  have hparams1 := record_params s.history (.insertCmd o [a]) ts₁
  have hstack1 : (s.history.record (.insertCmd o [a]) ts₁).undo_stack
      = [{ command := .insertCmd o [a],
           metadata := { timestamp := ts₁, operation_type := .insert } }] := by
    rw [record_noMerge_stack _ _ _ (by rw [hempty]; intro top htop; simp at htop),
      hempty, List.nil_append,
      if_neg (by simp only [List.length_singleton]; omega)]
    simp only [Command.opType]
  have hn1 : store1.getText.length = store1.docLength := getText_length hwf1
  have hlen1 : store1.getText.length = s.store.getText.length + 1 := by
    rw [htext1, refInsert_length (o := o) _ _ (by omega)]
    rfl
  obtain ⟨store2, he2, hwf2, htext2⟩ :=
    insert_ok (o := o + 1) (t := [b]) hwf1 (by omega)
  have hex2 : Session.execute
        ⟨store1, s.history.record (.insertCmd o [a]) ts₁⟩ (.insert (o + 1) [b]) ts₂
      = .ok ⟨store2, (s.history.record (.insertCmd o [a]) ts₁).record
          (.insertCmd (o + 1) [b]) ts₂⟩ := by
    simp only [Session.execute, he2]
  rw [htext1] at htext2
  have hadj := refInsert_refInsert_adjacent (o := o) s.store.getText [a] [b] (by omega)
  simp only [List.length_singleton] at hadj
  rw [hadj] at htext2
  have hn2 : store2.getText.length = store2.docLength := getText_length hwf2
  have hlen2 : store2.getText.length = s.store.getText.length + 2 := by
    rw [htext2, refInsert_length (o := o) _ _ (by omega)]
    rfl
  refine ⟨_, _, hex1, hex2, ?_, ?_⟩
  · intro hwin
    have helig : mergeEligible
        (s.history.record (.insertCmd o [a]) ts₁).merge_window_ms
        { command := .insertCmd o [a],
          metadata := { timestamp := ts₁, operation_type := .insert } }
        (.insertCmd (o + 1) [b]) ts₂ = true := by
      rw [hparams1.2.1]
      simp [mergeEligible, contiguous, Command.opType, hwin]
    have hstack2 : ((s.history.record (.insertCmd o [a]) ts₁).record
          (.insertCmd (o + 1) [b]) ts₂).undo_stack
        = [{ command := .insertCmd o ([a] ++ [b]),
             metadata := { timestamp := ts₂, operation_type := .insert } }] := by
      rw [record_merge_stack _ _ _
          (by rw [hstack1]; exact List.getLast?_singleton _) helig _ rfl,
        hstack1, hparams1.1]
      simp only [List.dropLast_single, List.nil_append, mergeCommand]
      rw [if_neg (by simp only [List.length_singleton]; omega)]
    constructor
    · rw [hstack2]
      rfl
    · obtain ⟨store3, hdel3, hwf3, htext3⟩ :=
        delete_ok (o := o) (l := ([a] ++ [b]).length) hwf2 (by
          show o + ([a] ++ [b]).length ≤ store2.docLength
          simp only [List.length_append, List.length_singleton]
          omega)
      refine ⟨⟨store3,
        { ((s.history.record (.insertCmd o [a]) ts₁).record
              (.insertCmd (o + 1) [b]) ts₂) with
          undo_stack := ((s.history.record (.insertCmd o [a]) ts₁).record
              (.insertCmd (o + 1) [b]) ts₂).undo_stack.dropLast,
          redo_stack := ((s.history.record (.insertCmd o [a]) ts₁).record
              (.insertCmd (o + 1) [b]) ts₂).redo_stack ++
            [{ command := .insertCmd o ([a] ++ [b]),
               metadata := { timestamp := ts₂,
                             operation_type := .insert } }] }⟩, ?_, ?_⟩
      · show Session.undo _ = _
        simp only [Session.undo, hstack2, List.getLast?_singleton]
        simp only [applyInverse, hdel3]
        rfl
      · show store3.getText = s.store.getText
        rw [htext3, htext2]
        exact refDelete_refInsert s.store.getText ([a] ++ [b]) (by omega)
  · intro hwin
    have helig : ∀ top ∈ ((s.history.record (.insertCmd o [a]) ts₁).undo_stack).getLast?,
        mergeEligible (s.history.record (.insertCmd o [a]) ts₁).merge_window_ms top
          (.insertCmd (o + 1) [b]) ts₂ = false := by
      intro top htop
      rw [hstack1, List.getLast?_singleton] at htop
      injection htop with htop2
      subst htop2
      rw [hparams1.2.1]
      simp [mergeEligible,
        show ¬(ts₂ - ts₁ ≤ s.history.merge_window_ms) from by omega]
    rw [record_noMerge_stack _ _ _ helig, hstack1, hparams1.1,
      if_neg (by simp only [List.length_append, List.length_singleton]; omega)]
    rfl

/-- C3 witness: a fresh session, inserts at offsets 0 and 1 with timestamps
0 and 500 against a window of 1000. -/
theorem C3_merge_window_witness :
    ∃ s1 s2, (Session.create 5 1000).execute (.insert 0 ['a']) 0 = .ok s1 ∧
      s1.execute (.insert (0 + 1) ['b']) 500 = .ok s2 ∧
      (500 - 0 ≤ (Session.create 5 1000).history.merge_window_ms →
        s2.history.undo_stack.length = 1 ∧
        ∃ s3, s2.undo = .ok s3 ∧
          s3.store.getText = (Session.create 5 1000).store.getText) ∧
      (500 - 0 > (Session.create 5 1000).history.merge_window_ms →
        s2.history.undo_stack.length = 2) :=
  C3_merge_window (Session.create 5 1000) 0 0 500 'a' 'b'
    (by decide) rfl (by decide) (by decide) (by decide)

/-- C4: from a session with empty undo history, after executing
`max_history_size + k` non-mergeable successful commands the undo stack
holds exactly `max_history_size` records, namely the records of all
executed commands with the first `k` dropped (eviction removes only the
oldest, from the front), so the oldest survivor is the `(k+1)`-th
command's record. -/
theorem C4_history_bound (s : Session) (ops : List (EditOp × Nat)) (k : Nat)
    (hempty : s.history.undo_stack = [])
    (hnm : s.NoMergeTrace ops)
    (hlen : ops.length = s.history.max_history_size + k) :
    ∃ sf, s.executeAll ops = .ok sf ∧
      sf.history.undo_stack.length = s.history.max_history_size ∧
      sf.history.undo_stack = (s.traceRecords ops).drop k ∧
      sf.history.undo_stack.head? = (s.traceRecords ops)[k]? := by
  obtain ⟨sf, hrun, hmaxf, hstack, -⟩ :=
    executeAll_noMerge_stack ops s hnm (by rw [hempty]; simp)
  have hR : (s.traceRecords ops).length = ops.length :=
    traceRecords_length ops s hnm
  rw [hempty, List.nil_append, List.length_nil] at hstack
  have hk : 0 + (s.traceRecords ops).length - s.history.max_history_size = k := by
    omega
  rw [hk] at hstack
  refine ⟨sf, hrun, ?_, hstack, ?_⟩
  · rw [hstack, List.length_drop]
    omega
  · rw [hstack, List.head?_drop]

/-- C4 witness: a fresh session bounded at 2, three non-mergeable inserts
(at the same offset, outside any window), `k = 1`. -/
theorem C4_history_bound_witness :
    ∃ sf, (Session.create 2 0).executeAll
        [(.insert 0 ['a'], 0), (.insert 0 ['b'], 10), (.insert 0 ['c'], 20)] = .ok sf ∧
      sf.history.undo_stack.length = (Session.create 2 0).history.max_history_size ∧
      sf.history.undo_stack
        = ((Session.create 2 0).traceRecords
            [(.insert 0 ['a'], 0), (.insert 0 ['b'], 10), (.insert 0 ['c'], 20)]).drop 1 ∧
      sf.history.undo_stack.head?
        = ((Session.create 2 0).traceRecords
            [(.insert 0 ['a'], 0), (.insert 0 ['b'], 10), (.insert 0 ['c'], 20)])[1]? :=
  C4_history_bound (Session.create 2 0)
    [(.insert 0 ['a'], 0), (.insert 0 ['b'], 10), (.insert 0 ['c'], 20)] 1
    rfl
    (by
      refine ⟨by intro top htop; simp [Session.create] at htop, _, rfl, ?_⟩
      refine ⟨by intro top htop; injection htop with h2; subst h2; decide, _, rfl, ?_⟩
      refine ⟨by intro top htop; injection htop with h2; subst h2; decide, _, rfl, trivial⟩)
    rfl

/-- C9 counterexample: `api.rs` holds one process-wide document
(`static DOCUMENT: Lazy<RwLock<PieceTree>>`) and exposes no session handle,
so two independently created "sessions" alias the same state: a caller that
creates (and then reads) the document sees the empty text at creation, yet
after another caller's `insert_text` the same reader sees "x" — a mutation
performed through one session changed the text observed through the
other. -/
theorem C9_counterexample :
    Api.get_full_text (Api.create_empty_document PieceTree.emptyDoc).2 = [] ∧
    Api.get_full_text
      (Api.insert_text 0 ['x'] (Api.create_empty_document PieceTree.emptyDoc).2).2
      = ['x'] ∧
    ([] : Str) ≠ ['x'] :=
  ⟨rfl, by decide, by decide⟩

/-- C9 amended: the Text Store (and the history the real `PieceTree`
embeds) is process-wide state, not per-session: the api exposes no session
handle, every reader reads the single global document, and a mutation
through any caller is observed by every other caller.  From any prior
global state, after `create_empty_document` every reader sees the empty
text, and after an insert through the api every reader sees exactly the
text the mutating caller was returned. -/
theorem C9_amended (g : Api.ApiState) (o : Nat) (t : Str) :
    Api.get_full_text (Api.create_empty_document g).2 = [] ∧
    Api.get_full_text (Api.insert_text o t (Api.create_empty_document g).2).2
      = (Api.insert_text o t (Api.create_empty_document g).2).1 := by
  constructor
  · rfl
  · unfold Api.insert_text Api.get_full_text
    cases h : ((Api.create_empty_document g).2).insert o t <;> rfl

/-- Joining at most one text with a separator introduces no separator. -/
theorem flatten_intersperse_newline {xs : List Str} (h : xs.length ≤ 1) :
    ((xs.intersperse ['\n']).flatten) = xs.headD [] := by
  match xs with
  | [] => rfl
  | [x] => simp [List.intersperse]
  | x :: y :: rest => simp at h

/-- The paragraph and run loops of `parse_main_document` each iterate an
`Option` (the first regex match), so at most one paragraph with at most one
run is ever produced. -/
theorem parse_main_document_paragraphs (xml : Str) :
    (Ooxml.parse_main_document xml).paragraphs.length ≤ 1 ∧
    ∀ p ∈ (Ooxml.parse_main_document xml).paragraphs, p.runs.length ≤ 1 := by
  unfold Ooxml.parse_main_document
  constructor
  · dsimp only
    split
    · simp
    · split <;> simp
  · dsimp only
    split
    · simp
    · split
      · intro p hp
        simp only [List.mem_singleton] at hp
        subst hp
        dsimp only
        split
        · simp
        · split <;> simp
      · simp

/-- The document text of `parse_main_document` is the single paragraph's
text, or empty: the newline join never fires. -/
theorem parse_main_document_text (xml : Str) :
    (Ooxml.parse_main_document xml).text
      = ((Ooxml.parse_main_document xml).paragraphs.map Ooxml.Paragraph.text).headD [] := by
  have h := (parse_main_document_paragraphs xml).1
  show ((((Ooxml.parse_main_document xml).paragraphs.map Ooxml.Paragraph.text).intersperse
      ['\n']).flatten) = _
  exact flatten_intersperse_newline (by rw [List.length_map]; exact h)

/-- C10: for every OPC package accepted by `WordDocument::parse`, at most
one paragraph is extracted from word/document.xml and each extracted
paragraph holds at most one run, because the paragraph, run and text loops
each iterate the `Option` returned by `Regex::captures` (only the first
match); consequently the document text — the "\n"-join of the paragraph
texts — equals the single paragraph's text (or is empty) and never contains
a newline separator, regardless of how many `<w:p>` or `<w:r>` elements the
XML contains. -/
theorem C10_single_capture (pkg : Ooxml.OpcPackage) (d : Ooxml.WordDocument)
    (h : Ooxml.WordDocument.parse pkg = .ok d) :
    d.paragraphs.length ≤ 1 ∧
    (∀ p ∈ d.paragraphs, p.runs.length ≤ 1) ∧
    d.text = (d.paragraphs.map Ooxml.Paragraph.text).headD [] := by
  unfold Ooxml.WordDocument.parse at h
  cases hpart : pkg.get_part (("/word/document.xml").data) with
  | none =>
      rw [hpart] at h
      cases h
  | some xml =>
      rw [hpart] at h
      cases h
      obtain ⟨h1, h2⟩ := parse_main_document_paragraphs xml
      exact ⟨h1, h2, parse_main_document_text xml⟩

/-- C10 witness: a package whose word/document.xml holds two paragraphs of
one run each; parse still returns at most one paragraph, one run, and an
unjoined text. -/
theorem C10_single_capture_witness :
    (Ooxml.parse_main_document
        (("<w:p><w:r><w:t>hi</w:t></w:r></w:p><w:p><w:r><w:t>bye</w:t></w:r></w:p>").data)).paragraphs.length ≤ 1 ∧
    (∀ p ∈ (Ooxml.parse_main_document
        (("<w:p><w:r><w:t>hi</w:t></w:r></w:p><w:p><w:r><w:t>bye</w:t></w:r></w:p>").data)).paragraphs,
      p.runs.length ≤ 1) ∧
    (Ooxml.parse_main_document
        (("<w:p><w:r><w:t>hi</w:t></w:r></w:p><w:p><w:r><w:t>bye</w:t></w:r></w:p>").data)).text
      = ((Ooxml.parse_main_document
          (("<w:p><w:r><w:t>hi</w:t></w:r></w:p><w:p><w:r><w:t>bye</w:t></w:r></w:p>").data)).paragraphs.map
            Ooxml.Paragraph.text).headD [] :=
  C10_single_capture
    ⟨[((("/word/document.xml").data),
       (("<w:p><w:r><w:t>hi</w:t></w:r></w:p><w:p><w:r><w:t>bye</w:t></w:r></w:p>").data))]⟩
    _ rfl
end Velum
